import Mathlib

/-!
# A verification model of the tview `TextView` engine

This file gives a shallow embedding of the scrollable text-display engine of
the `tview` repository (`TextView` in the text-view source file): the stream
ingest (`Write`), the display-line indexer (`reindexBuffer`), the draw-time
viewport clamping (`Draw`) and the region extractor (`GetRegionText`).

Modelling conventions:

* Go byte strings are `List Nat` (each element a byte value `< 256`);
  Go runes are `Nat` codepoints.  Machine integers of the viewport
  (`lineOffset`, widths, ...) are `Int`, matching Go's signed `int`.
* The regular-expression helpers (`colorPattern`, `regionPattern`,
  `escapePattern`, `spacePattern`, `boundaryPattern`) live in a utility file
  of the repository that is not part of the given sources; they are modelled
  from the spec (section 6 "Markup grammar") as explicit scanners with
  leftmost-first, greedy semantics, matching Go's `regexp` behaviour on
  these patterns.
* The external dependencies `unicode/utf8` and `go-runewidth` are modelled
  explicitly (`decodeRune`, `decodeLastRune`, `runeWidth`).
* Callbacks (`changed`, `done`) and the actual cell painting of `Draw` are
  not modelled; they do not affect any engine state the claims mention.
* Functions use explicit fuel instead of Go's unbounded loops; every fuel
  argument is chosen so that it never runs out on inputs where the Go loop
  terminates.
-/

/-! ## Byte classes (ASCII character classes used by the patterns) -/

/-- `\s` of Go regexp: `[\t\n\f\r ]`. -/
def isSpaceByte (b : Nat) : Bool :=
  b = 9 || b = 10 || b = 12 || b = 13 || b = 32

/-- `[[:punct:]]` of Go regexp (ASCII punctuation). -/
def isPunctByte (b : Nat) : Bool :=
  (33 ≤ b && b ≤ 47) || (58 ≤ b && b ≤ 64) || (91 ≤ b && b ≤ 96) || (123 ≤ b && b ≤ 126)

/-- `[a-zA-Z]`. -/
def isLetterByte (b : Nat) : Bool :=
  (65 ≤ b && b ≤ 90) || (97 ≤ b && b ≤ 122)

/-- `[0-9]`. -/
def isDigitByte (b : Nat) : Bool :=
  48 ≤ b && b ≤ 57

/-- `[0-9a-zA-Z]`. -/
def isAlnumByte (b : Nat) : Bool :=
  isDigitByte b || isLetterByte b

/-- `[0-9A-Fa-f]`. -/
def isHexByte (b : Nat) : Bool :=
  isDigitByte b || (65 ≤ b && b ≤ 70) || (97 ≤ b && b ≤ 102)

/-- The region-identifier class `[a-zA-Z0-9_,;: \-\.]`. -/
def isRegionIdByte (b : Nat) : Bool :=
  isLetterByte b || isDigitByte b || b = 95 || b = 44 || b = 59 || b = 58 ||
    b = 32 || b = 45 || b = 46

/-- The escape-tag body class: region-id characters plus `"` and `#`. -/
def isEscBodyByte (b : Nat) : Bool :=
  isRegionIdByte b || b = 34 || b = 35

/-- Length of the longest prefix of `s` on which `f` holds. -/
def countWhile (f : Nat → Bool) : List Nat → Nat
  | [] => 0
  | b :: rest => if f b then countWhile f rest + 1 else 0

/-! ## UTF-8 (model of Go `unicode/utf8`) -/

/-- `utf8.RuneError` (U+FFFD). -/
def runeError : Nat := 0xFFFD

/-- Model of `utf8.DecodeRune`: decodes the first rune of a byte string,
returning the codepoint and the number of bytes consumed.  Returns
`(runeError, 1)` on any invalid, overlong, surrogate or truncated encoding,
and `(runeError, 0)` on empty input, exactly like Go. -/
def decodeRune (s : List Nat) : Nat × Nat :=
  match s with
  | [] => (runeError, 0)
  | b0 :: rest =>
    if b0 < 0x80 then (b0, 1)
    else if b0 < 0xC2 then (runeError, 1)
    else if b0 ≤ 0xDF then
      match rest with
      | b1 :: _ =>
        if 0x80 ≤ b1 ∧ b1 ≤ 0xBF then ((b0 - 0xC0) * 64 + (b1 - 0x80), 2)
        else (runeError, 1)
      | [] => (runeError, 1)
    else if b0 ≤ 0xEF then
      match rest with
      | b1 :: b2 :: _ =>
        let lo1 : Nat := if b0 = 0xE0 then 0xA0 else 0x80
        let hi1 : Nat := if b0 = 0xED then 0x9F else 0xBF
        if lo1 ≤ b1 ∧ b1 ≤ hi1 ∧ 0x80 ≤ b2 ∧ b2 ≤ 0xBF then
          ((b0 - 0xE0) * 4096 + (b1 - 0x80) * 64 + (b2 - 0x80), 3)
        else (runeError, 1)
      | _ => (runeError, 1)
    else if b0 ≤ 0xF4 then
      match rest with
      | b1 :: b2 :: b3 :: _ =>
        let lo1 : Nat := if b0 = 0xF0 then 0x90 else 0x80
        let hi1 : Nat := if b0 = 0xF4 then 0x8F else 0xBF
        if lo1 ≤ b1 ∧ b1 ≤ hi1 ∧ 0x80 ≤ b2 ∧ b2 ≤ 0xBF ∧ 0x80 ≤ b3 ∧ b3 ≤ 0xBF then
          ((b0 - 0xF0) * 262144 + (b1 - 0x80) * 4096 + (b2 - 0x80) * 64 + (b3 - 0x80), 4)
        else (runeError, 1)
      | _ => (runeError, 1)
    else (runeError, 1)

/-- Model of `utf8.EncodeRune` / `WriteRune`: the UTF-8 bytes of a codepoint
(surrogates and out-of-range values encode `runeError`, as in Go). -/
def encodeRune (c : Nat) : List Nat :=
  if c < 0x80 then [c]
  else if c < 0x800 then [0xC0 + c / 64, 0x80 + c % 64]
  else if 0xD800 ≤ c ∧ c ≤ 0xDFFF then [0xEF, 0xBF, 0xBD]
  else if c < 0x10000 then [0xE0 + c / 4096, 0x80 + (c / 64) % 64, 0x80 + c % 64]
  else if c ≤ 0x10FFFF then
    [0xF0 + c / 262144, 0x80 + (c / 4096) % 64, 0x80 + (c / 64) % 64, 0x80 + c % 64]
  else [0xEF, 0xBF, 0xBD]

/-- `utf8.RuneStart`: `b & 0xC0 != 0x80`, i.e. not a continuation byte
(stated arithmetically: not in `[0x80, 0xBF]`). -/
def runeStart (b : Nat) : Bool :=
  b < 0x80 || 0xC0 ≤ b

/-- Model of `utf8.DecodeLastRune`.  Go scans backwards over at most
`UTFMax` bytes for a rune-start byte, decodes from there and demands that
the decoded rune spans exactly to the end.  The candidate window below is
extensionally equal to Go's choice: whenever Go would decode a window of
five or more bytes the result is an error, and so is decoding our four-byte
window that then starts with a continuation byte. -/
def decodeLastRuneAux (rev : List Nat) : Nat × Nat :=
  match rev with
  | [] => (runeError, 0)
  | b0 :: tl =>
    if b0 < 0x80 then (b0, 1)
    else
      let cand : List Nat :=
        match tl with
        | [] => [b0]
        | b1 :: tl1 =>
          if runeStart b1 then [b1, b0]
          else
            match tl1 with
            | [] => [b1, b0]
            | b2 :: tl2 =>
              if runeStart b2 then [b2, b1, b0]
              else
                match tl2 with
                | [] => [b2, b1, b0]
                | b3 :: _ => [b3, b2, b1, b0]
      let rn := decodeRune cand
      if rn.2 = cand.length then rn else (runeError, 1)

/-- `utf8.DecodeLastRune` proper, working on the reversed byte list. -/
def decodeLastRune (s : List Nat) : Nat × Nat :=
  decodeLastRuneAux s.reverse

/-- One decode step per fuel unit: the rune/byte-size pairs of a byte string
(Go's `range` over a string; each undecodable byte yields `runeError` with
size 1). -/
def utf8ExplodeAux : Nat → List Nat → List (Nat × Nat)
  | 0, _ => []
  | _, [] => []
  | fuel + 1, s =>
    let rn := decodeRune s
    rn :: utf8ExplodeAux fuel (s.drop rn.2)

/-- The rune/size pairs of a byte string. -/
def utf8Explode (s : List Nat) : List (Nat × Nat) :=
  utf8ExplodeAux s.length s

/-- Byte length of a rune/size pair list. -/
def bsum (ps : List (Nat × Nat)) : Nat :=
  ps.foldr (fun p acc => p.2 + acc) 0

/-- A byte string is valid UTF-8 when re-encoding every decoded rune
reproduces exactly the bytes consumed for it. -/
def validUtf8Aux : Nat → List Nat → Bool
  | _, [] => true
  | 0, _ => false
  | fuel + 1, s =>
    let rn := decodeRune s
    encodeRune rn.1 == s.take rn.2 && validUtf8Aux fuel (s.drop rn.2)

/-- Validity of a whole byte string as UTF-8. -/
def validUtf8 (s : List Nat) : Bool :=
  validUtf8Aux s.length s

/-! ## Rune widths (model of the external `go-runewidth` library) -/

/-- East-Asian wide/fullwidth ranges (a faithful-enough model of the
external `go-runewidth` tables; the claims never depend on the exact
boundaries of the wide ranges). -/
def isWideRune (c : Nat) : Bool :=
  (0x1100 ≤ c && c ≤ 0x115F) || (0x2329 ≤ c && c ≤ 0x232A) ||
  (0x2E80 ≤ c && c ≤ 0x303E) || (0x3041 ≤ c && c ≤ 0x33FF) ||
  (0x3400 ≤ c && c ≤ 0x4DBF) || (0x4E00 ≤ c && c ≤ 0x9FFF) ||
  (0xA000 ≤ c && c ≤ 0xA4CF) || (0xAC00 ≤ c && c ≤ 0xD7A3) ||
  (0xF900 ≤ c && c ≤ 0xFAFF) || (0xFE30 ≤ c && c ≤ 0xFE4F) ||
  (0xFF00 ≤ c && c ≤ 0xFF60) || (0xFFE0 ≤ c && c ≤ 0xFFE6) ||
  (0x20000 ≤ c && c ≤ 0x3FFFD)

/-- Model of `runewidth.RuneWidth`: 0 for control/combining characters,
2 for wide characters, 1 otherwise. -/
def runeWidth (c : Nat) : Nat :=
  if c < 32 then 0
  else if 0x7F ≤ c ∧ c < 0xA0 then 0
  else if 0x300 ≤ c ∧ c ≤ 0x36F then 0
  else if isWideRune c then 2
  else 1

/-- Display width of a rune/size pair list. -/
def wsum (ps : List (Nat × Nat)) : Nat :=
  ps.foldr (fun p acc => runeWidth p.1 + acc) 0

/-- Display width of a byte string (`runewidth.StringWidth`). -/
def stringWidthB (s : List Nat) : Nat :=
  wsum (utf8Explode s)

/-! ## Word-wrap splitting (`reindexBuffer`, lines "Split the line if required")

The splitting operates on rune/size pair lists.  Go's `runewidth.Truncate`
and the `spacePattern`/`boundaryPattern` regex matches all cut at rune
boundaries, so a piece is always a pair-list prefix; its byte length is
`bsum` of the pairs. -/

/-- The greedy width cut of `runewidth.Truncate`: number of leading runes
whose accumulated display width stays within `w`. -/
def greedyCut : List (Nat × Nat) → Nat → Nat
  | [], _ => 0
  | p :: ps, w => if runeWidth p.1 ≤ w then greedyCut ps (w - runeWidth p.1) + 1 else 0

/-- Model of `runewidth.Truncate(s, w, "")` as a rune count: the whole
string if it fits, otherwise the greedy prefix.  (The two branches agree;
see `truncCut_eq_greedyCut`.) -/
def truncCut (ps : List (Nat × Nat)) (w : Nat) : Nat :=
  if wsum ps ≤ w then ps.length else greedyCut ps w

/-- Leading `\s`-run length (in runes) — `spacePattern.FindStringIndex`
restricted to a match at position 0. -/
def leadSpaces : List (Nat × Nat) → Nat
  | [] => 0
  | p :: ps => if isSpaceByte p.1 then leadSpaces ps + 1 else 0

/-- A rune that can be part of a `boundaryPattern` match
(`[[:punct:]]\s*|\s+`). -/
def isBoundaryRune (c : Nat) : Bool :=
  isPunctByte c || isSpaceByte c

/-- Modelled from the spec: the `boundaryPattern` regex
`([[:punct:]]\s*|\s+)` (from the repository's utility file, which is not in
the given sources).  Every match consists solely of punctuation/space
runes and every such rune lies in some match, so the end offset of the
*last* match of `FindAllStringIndex` is exactly one past the last
boundary rune.  The scanner below returns that offset (in runes; all
boundary runes are single-byte, and the piece cut happens right after
one, so rune offsets and byte offsets agree). -/
def lastBoundaryEndAux : List (Nat × Nat) → Nat → Option Nat → Option Nat
  | [], _, acc => acc
  | p :: ps, pos, acc =>
      lastBoundaryEndAux ps (pos + 1) (if isBoundaryRune p.1 then some (pos + 1) else acc)

/-- One past the last boundary rune of a pair list, if any. -/
def lastBoundaryEnd (ps : List (Nat × Nat)) : Option Nat :=
  lastBoundaryEndAux ps 0 none

/-- Length (in runes) of the first piece carved from a line, following the
split loop of `reindexBuffer`: truncate to the width; under word-wrap, if
the cut is strictly inside the line, first extend through an immediately
following whitespace run, then retreat to the end of the last boundary
match if one exists. -/
def pieceLen (wordWrap : Bool) (w : Nat) (s : List (Nat × Nat)) : Nat :=
  let t := truncCut s w
  if wordWrap ∧ t < s.length then
    let t' := t + leadSpaces (s.drop t)
    match lastBoundaryEnd (s.take t') with
    | some e => e
    | none => t'
  else t

/-- The split loop (`for len(str) > 0`), one iteration per fuel unit.  Note
that the Go loop diverges when a piece comes out empty (a rune wider than
the viewport); with fuel the model instead stops after `fuel` iterations. -/
def splitPiecesAux : Nat → Bool → Nat → List (Nat × Nat) → List (List (Nat × Nat))
  | 0, _, _, _ => []
  | fuel + 1, ww, w, s =>
    if s.isEmpty then []
    else
      let n := pieceLen ww w s
      s.take n :: splitPiecesAux fuel ww w (s.drop n)

/-- All pieces of one line under wrapping. -/
def splitPieces (ww : Bool) (w : Nat) (s : List (Nat × Nat)) : List (List (Nat × Nat)) :=
  splitPiecesAux (s.length + 1) ww w s

/-! ## Tag scanners (modelled from the spec's markup grammar)

Modelled from the spec: `colorPattern` is `\[([a-zA-Z]+|#[0-9A-Fa-f]{6})\]`,
`regionPattern` is `\["([a-zA-Z0-9_,;: \-\.]*)"\]` (the empty id `[""]`
closes a region), and `escapePattern` is a bracket sequence
`\[(body)\[(\[*)\]` that renders as a single literal bracket, consuming one
extra input byte per occurrence.  These patterns live in the repository's
utility file, which is not among the given sources.  Each scanner returns
`(matchLength, capture)` for a match anchored at the head of its input;
`findAllAux` then reproduces `FindAllStringIndex`'s leftmost-first,
non-overlapping scan. -/

/-- Anchored match of `colorPattern`; capture is the color name or
`#rrggbb` (with the `#`). -/
def tryColorAt (s : List Nat) : Option (Nat × List Nat) :=
  match s with
  | 91 :: rest =>
    let k := countWhile isLetterByte rest
    if 0 < k ∧ (rest.drop k).head? = some 93 then
      some (k + 2, rest.take k)
    else
      match rest with
      | 35 :: hs =>
        if (hs.take 6).length = 6 ∧ (hs.take 6).all isHexByte ∧ (hs.drop 6).head? = some 93 then
          some (9, 35 :: hs.take 6)
        else none
      | _ => none
  | _ => none

/-- Anchored match of `regionPattern`; capture is the region id. -/
def tryRegionAt (s : List Nat) : Option (Nat × List Nat) :=
  match s with
  | 91 :: 34 :: rest =>
    let k := countWhile isRegionIdByte rest
    match rest.drop k with
    | 34 :: 93 :: _ => some (k + 4, rest.take k)
    | _ => none
  | _ => none

/-- Anchored match of `escapePattern`; capture is the body length (needed
to rebuild the `[$1$2]` replacement). -/
def tryEscapeAt (s : List Nat) : Option (Nat × Nat) :=
  match s with
  | 91 :: rest =>
    let k := countWhile isEscBodyByte rest
    if k = 0 then none
    else
      match rest.drop k with
      | 91 :: rest2 =>
        let j := countWhile (fun b => b = 91) rest2
        match rest2.drop j with
        | 93 :: _ => some (k + j + 3, k)
        | _ => none
      | _ => none
  | _ => none

/-- `FindAllStringIndex`: scan left to right, at each position report the
anchored match if any and continue after it, else advance one byte. -/
def findAllAux {α : Type} (tryTag : List Nat → Option (Nat × α)) :
    Nat → List Nat → Nat → List (Nat × Nat × α)
  | 0, _, _ => []
  | _, [], _ => []
  | fuel + 1, s, pos =>
    match tryTag s with
    | some (n, a) => (pos, pos + n, a) :: findAllAux tryTag fuel (s.drop n) (pos + n)
    | none => findAllAux tryTag fuel (s.drop 1) (pos + 1)

/-- All `colorPattern` matches: `(start, end, capture)` triples. -/
def colorMatches (s : List Nat) : List (Nat × Nat × List Nat) :=
  findAllAux tryColorAt s.length s 0

/-- All `regionPattern` matches: `(start, end, id)` triples. -/
def regionMatches (s : List Nat) : List (Nat × Nat × List Nat) :=
  findAllAux tryRegionAt s.length s 0

/-- All `escapePattern` matches: `(start, end, bodyLength)` triples. -/
def escapeMatches (s : List Nat) : List (Nat × Nat × Nat) :=
  findAllAux tryEscapeAt s.length s 0

/-- Remove the matched ranges from a byte string
(`ReplaceAllString(str, "")`); `ms` holds sorted, disjoint ranges. -/
def removeRangesAux : List Nat → Nat → List (Nat × Nat) → List Nat
  | s, _, [] => s
  | s, pos, (st, en) :: ms => s.take (st - pos) ++ removeRangesAux (s.drop (en - pos)) en ms

/-- Remove all matched ranges. -/
def removeRanges (s : List Nat) (ms : List (Nat × Nat)) : List Nat :=
  removeRangesAux s 0 ms

/-- Rewrite every escape match `[body[···[]` to `[body···[]` — i.e. drop the
byte at offset `1 + bodyLength` inside the match
(`escapePattern.ReplaceAllString(str, "[$1$2]")`). -/
def replaceEscapesAux : List Nat → Nat → List (Nat × Nat × Nat) → List Nat
  | s, _, [] => s
  | s, pos, (st, en, k) :: ms =>
    let seg := (s.drop (st - pos)).take (en - st)
    s.take (st - pos) ++ (seg.take (1 + k) ++ seg.drop (2 + k)) ++
      replaceEscapesAux (s.drop (en - pos)) en ms

/-- Apply the escape replacement to all matches. -/
def replaceEscapes (s : List Nat) (ms : List (Nat × Nat × Nat)) : List Nat :=
  replaceEscapesAux s 0 ms

/-! ## The `TextView` state -/

/-- `textViewIndex`: one display-line entry.  `Color` and `Region` are the
tag payloads (colors are modelled as the byte string handed to
`tcell.GetColor`; the initial text color is the distinguished value
`primaryTextColor`). -/
structure textViewIndex where
  Line : Nat
  Pos : Nat
  NextPos : Nat
  Width : Nat
  Color : List Nat
  Region : List Nat
deriving DecidableEq, Repr

/-- `Styles.PrimaryTextColor`, as an opaque-but-concrete color value
distinct from every tag payload (tag payloads are nonempty). -/
def primaryTextColor : List Nat := []

/-- `tcell.GetColor`: colors are modelled by the name/hex payload itself. -/
def getColor (payload : List Nat) : List Nat := payload

/-- Text alignment constants of the repository (`AlignLeft`, `AlignCenter`,
`AlignRight`), modelled from the spec's configuration surface. -/
def AlignLeft : Nat := 0

/-- Center alignment. -/
def AlignCenter : Nat := 1

/-- Right alignment. -/
def AlignRight : Nat := 2

/-- `TabSize`: number of spaces replacing a tab character. -/
def TabSize : Nat := 4

/-- The `TextView` state (callbacks omitted; the mutex is irrelevant in the
sequential model). -/
structure TextView where
  buffer : List (List Nat)
  recentBytes : List Nat
  index : Option (List textViewIndex)
  align : Nat
  fromHighlight : Int
  toHighlight : Int
  highlights : List (List Nat)
  lastWidth : Int
  longestLine : Nat
  lineOffset : Int
  trackEnd : Bool
  columnOffset : Int
  pageSize : Int
  scrollable : Bool
  wrap : Bool
  wordWrap : Bool
  textColor : List Nat
  dynamicColors : Bool
  regions : Bool
  scrollToHighlights : Bool
deriving DecidableEq, Repr

/-- `NewTextView`. -/
def newTextView : TextView where
  buffer := []
  recentBytes := []
  index := none
  align := AlignLeft
  fromHighlight := -1
  toHighlight := -1
  highlights := []
  lastWidth := 0
  longestLine := 0
  lineOffset := -1
  trackEnd := false
  columnOffset := 0
  pageSize := 0
  scrollable := true
  wrap := true
  wordWrap := false
  textColor := primaryTextColor
  dynamicColors := false
  regions := false
  scrollToHighlights := false

/-! ## Stream ingest (`Write`) -/

/-- Does the open-color regex `\[([a-zA-Z]*|#[0-9a-zA-Z]*)$` match the
suffix starting right after a `[` whose remainder is `rest`? -/
def openColorSuffix (rest : List Nat) : Bool :=
  rest.all isLetterByte ||
    (match rest with
     | 35 :: hs => hs.all isAlnumByte
     | _ => false)

/-- Leftmost index at which the open-color regex matches through to the end
of the input. -/
def findOpenColor : List Nat → Nat → Option Nat
  | [], _ => none
  | 91 :: rest, pos =>
    if openColorSuffix rest then some pos else findOpenColor rest (pos + 1)
  | _ :: rest, pos => findOpenColor rest (pos + 1)

/-- Does the open-region regex `\["[a-zA-Z0-9_,;: \-\.]*"?$` match the
suffix starting right after a `[` whose remainder is `rest`? -/
def openRegionSuffix (rest : List Nat) : Bool :=
  match rest with
  | 34 :: rs =>
    let k := countWhile isRegionIdByte rs
    decide (rs.drop k = [] ∨ rs.drop k = [34])
  | _ => false

/-- Leftmost index at which the open-region regex matches through to the
end of the input. -/
def findOpenRegion : List Nat → Nat → Option Nat
  | [], _ => none
  | 91 :: rest, pos =>
    if openRegionSuffix rest then some pos else findOpenRegion rest (pos + 1)
  | _ :: rest, pos => findOpenRegion rest (pos + 1)

/-- Tab expansion: each tab byte becomes `TabSize` spaces. -/
def expandTabs (s : List Nat) : List Nat :=
  s.flatMap fun b => if b = 9 then List.replicate TabSize 32 else [b]

/-- Split on the line-break regex `\r?\n` (leftmost-first: `\r\n` where the
`\r` is present, a bare `\n` otherwise; a bare `\r` is ordinary text). -/
def splitNLAux (acc : List Nat) : List Nat → List (List Nat)
  | [] => [acc.reverse]
  | 13 :: 10 :: rest => acc.reverse :: splitNLAux [] rest
  | 10 :: rest => acc.reverse :: splitNLAux [] rest
  | b :: rest => splitNLAux (b :: acc) rest

/-- The segments of a byte string between line breaks (always nonempty). -/
def splitNL (s : List Nat) : List (List Nat) :=
  splitNLAux [] s

/-- Merge the split segments into the buffer: the first segment extends the
last logical line (or becomes the first), the rest become new lines. -/
def appendSegs (buf : List (List Nat)) : List (List Nat) → List (List Nat)
  | [] => buf
  | s0 :: rest =>
    (match buf with
     | [] => [s0]
     | _ => buf.dropLast ++ [buf.getLastD [] ++ s0]) ++ rest

/-- `Write(p)`: returns the new state, the reported byte count and the
error (always `none`).  The trailing-invalid-rune check inspects `p` (the
new bytes), exactly as the source does. -/
def write (p : List Nat) (t : TextView) : TextView × Nat × Option Unit :=
  let newBytes := t.recentBytes ++ p
  let t1 := { t with recentBytes := [] }
  if (decodeLastRune p).1 = runeError then
    ({ t1 with recentBytes := newBytes }, p.length, none)
  else
    let step1 : TextView × List Nat :=
      if t1.dynamicColors then
        match findOpenColor newBytes 0 with
        | some i => ({ t1 with recentBytes := newBytes.drop i }, newBytes.take i)
        | none => (t1, newBytes)
      else (t1, newBytes)
    let t2 := step1.1
    let step2 : TextView × List Nat :=
      if t2.regions then
        match findOpenRegion step1.2 0 with
        | some i => ({ t2 with recentBytes := step1.2.drop i }, step1.2.take i)
        | none => (t2, step1.2)
      else (t2, step1.2)
    let t3 := step2.1
    let segs := splitNL (expandTabs step2.2)
    ({ t3 with buffer := appendSegs t3.buffer segs, index := none }, p.length, none)

/-! ## The indexer (`reindexBuffer`) -/

/-- The tag-walking state of the index-building loop ("Shift original
position with tags"): the position into the original line, the remaining
matches of each pattern, and the running color/region/highlight state. -/
structure ShiftState where
  originalPos : Nat
  colorMs : List (Nat × Nat × List Nat)
  regionMs : List (Nat × Nat × List Nat)
  escMs : List (Nat × Nat × Nat)
  color : List Nat
  regionID : List Nat
  fromHighlight : Int
  toHighlight : Int
deriving DecidableEq, Repr

/-- Is the head match's start within `bound`
(`indices[pos][0] <= originalPos+lineLength`)? -/
def headReady {α : Type} (ms : List (Nat × Nat × α)) (bound : Nat) : Bool :=
  match ms with
  | (s, _, _) :: _ => s ≤ bound
  | [] => false

/-- One iteration of the tag-walking loop: process the next color, region
or escape tag whose start offset falls within the current piece, in that
order; `none` when the loop breaks.  `entryIdx` is `len(t.index)` at this
moment (the position the entry under construction will take). -/
def shiftStep (hl : List (List Nat)) (entryIdx : Nat) (lineLength : Nat)
    (st : ShiftState) : Option ShiftState :=
  let bound := st.originalPos + lineLength
  if headReady st.colorMs bound then
    match st.colorMs with
    | (cst, cen, payload) :: cms =>
      some { st with originalPos := st.originalPos + (cen - cst),
                     color := getColor payload, colorMs := cms }
    | [] => none
  else if headReady st.regionMs bound then
    match st.regionMs with
    | (rst, ren, id) :: rms =>
      let st1 := { st with originalPos := st.originalPos + (ren - rst),
                           regionID := id, regionMs := rms }
      some (if hl.contains id then
              (if st1.fromHighlight < 0 then
                 { st1 with fromHighlight := entryIdx, toHighlight := entryIdx }
               else if (entryIdx : Int) > st1.toHighlight then
                 { st1 with toHighlight := entryIdx }
               else st1)
            else st1)
    | [] => none
  else if headReady st.escMs bound then
    match st.escMs with
    | _ :: ems => some { st with originalPos := st.originalPos + 1, escMs := ems }
    | [] => none
  else none

/-- The tag-walking loop, one processed tag per fuel unit. -/
def shiftTagsAux (hl : List (List Nat)) (entryIdx : Nat) (lineLength : Nat) :
    Nat → ShiftState → ShiftState
  | 0, st => st
  | fuel + 1, st =>
    match shiftStep hl entryIdx lineLength st with
    | some st1 => shiftTagsAux hl entryIdx lineLength fuel st1
    | none => st

/-- Build the index entries for the pieces of one line ("Create index from
split lines"): each piece records its start position, color and region
before the tag walk, then the walk shifts the original position past the
tags landing in this piece, and the piece's byte length is added. -/
def buildPieces (hl : List (List Nat)) (bufferIndex : Nat) :
    List (List (Nat × Nat)) → ShiftState → List textViewIndex →
    List textViewIndex × ShiftState
  | [], st, entries => (entries, st)
  | piece :: rest, st, entries =>
    let lineLength := bsum piece
    let fuel := st.colorMs.length + st.regionMs.length + st.escMs.length
    let st1 := shiftTagsAux hl entries.length lineLength fuel st
    let st2 := { st1 with originalPos := st1.originalPos + lineLength }
    let e : textViewIndex :=
      { Line := bufferIndex, Pos := st.originalPos, NextPos := st2.originalPos,
        Width := wsum piece, Color := st.color, Region := st.regionID }
    buildPieces hl bufferIndex rest st2 (entries ++ [e])

/-- Length of the trailing `\s`-run of a byte string (the last
`spacePattern` match when it ends at the end of the string). -/
def trailingSpaceRun (s : List Nat) : Nat :=
  countWhile isSpaceByte s.reverse

/-- "Word-wrapped lines may have trailing whitespace. Remove it.": shrink
an entry's end offset and width by its trailing whitespace run (computed on
the original buffer slice, as the source does). -/
def trimEntry (buffer : List (List Nat)) (e : textViewIndex) : textViewIndex :=
  let str := ((buffer.getD e.Line []).drop e.Pos).take (e.NextPos - e.Pos)
  let k := trailingSpaceRun str
  if 0 < k then
    { e with NextPos := e.NextPos - k,
             Width := e.Width - stringWidthB (str.drop (str.length - k)) }
  else e

/-- The color/region/highlight state carried across logical lines. -/
structure IndexCarry where
  color : List Nat
  regionID : List Nat
  fromHighlight : Int
  toHighlight : Int
deriving DecidableEq, Repr

/-- Index one logical line: find and strip the three tag families (in the
source's order: colors, then regions on the color-stripped text, then
escapes), split the stripped text, build the entries, and — under
word-wrap — re-trim the trailing whitespace of every entry so far. -/
def indexLine (dynamicColors regions wrap wordWrap : Bool) (w : Nat)
    (hl : List (List Nat)) (buffer : List (List Nat)) (bufferIndex : Nat)
    (lineBytes : List Nat) (entries : List textViewIndex) (carry : IndexCarry) :
    List textViewIndex × IndexCarry :=
  let cms := if dynamicColors then colorMatches lineBytes else []
  let str1 := if dynamicColors then
      removeRanges lineBytes (cms.map fun m => (m.1, m.2.1)) else lineBytes
  let rms := if regions then regionMatches str1 else []
  let str2 := if regions then removeRanges str1 (rms.map fun m => (m.1, m.2.1)) else str1
  let ems := if dynamicColors || regions then escapeMatches str2 else []
  let str3 := if dynamicColors || regions then replaceEscapes str2 ems else str2
  let pairs := utf8Explode str3
  let pieces := if wrap ∧ ¬str3.isEmpty then splitPieces wordWrap w pairs else [pairs]
  let st0 : ShiftState :=
    { originalPos := 0, colorMs := cms, regionMs := rms, escMs := ems,
      color := carry.color, regionID := carry.regionID,
      fromHighlight := carry.fromHighlight, toHighlight := carry.toHighlight }
  let res := buildPieces hl bufferIndex pieces st0 entries
  let entries2 := if wrap ∧ wordWrap then res.1.map (trimEntry buffer) else res.1
  (entries2,
   { color := res.2.color, regionID := res.2.regionID,
     fromHighlight := res.2.fromHighlight, toHighlight := res.2.toHighlight })

/-- Index all logical lines from line number `i` on. -/
def indexLines (dynamicColors regions wrap wordWrap : Bool) (w : Nat)
    (hl : List (List Nat)) (buffer : List (List Nat)) :
    Nat → List (List Nat) → List textViewIndex → IndexCarry →
    List textViewIndex × IndexCarry
  | _, [], entries, carry => (entries, carry)
  | i, line :: rest, entries, carry =>
    let res := indexLine dynamicColors regions wrap wordWrap w hl buffer i line entries carry
    indexLines dynamicColors regions wrap wordWrap w hl buffer (i + 1) rest res.1 res.2

/-- `reindexBuffer(width)`: return immediately when an index is present;
otherwise reset the highlight range, give up on non-positive widths, and
rebuild the whole index (a `nil` Go slice stays `nil` when no entry is ever
appended, hence `none` for an empty entry list). -/
def reindexBuffer (width : Int) (t : TextView) : TextView :=
  if t.index.isSome then t
  else
    let t1 := { t with index := none, fromHighlight := -1, toHighlight := -1 }
    if width < 1 then t1
    else
      let carry0 : IndexCarry :=
        { color := t1.textColor, regionID := [], fromHighlight := -1, toHighlight := -1 }
      let res := indexLines t1.dynamicColors t1.regions t1.wrap t1.wordWrap
        width.toNat t1.highlights t1.buffer 0 t1.buffer [] carry0
      { t1 with
        index := if res.1.isEmpty then none else some res.1,
        fromHighlight := res.2.fromHighlight,
        toHighlight := res.2.toHighlight,
        longestLine := res.1.foldl (fun acc e => max acc e.Width) 0 }

/-! ## Drawing (`Draw`): viewport adjustment -/

/-- The "Adjust column offset" block of `Draw`, by alignment mode. -/
def columnClamp (width : Int) (t : TextView) : TextView :=
  let longest : Int := (t.longestLine : Int)
  if t.align = AlignLeft then
    let a := if t.columnOffset + width > longest then
        { t with columnOffset := longest - width } else t
    if a.columnOffset < 0 then { a with columnOffset := 0 } else a
  else if t.align = AlignRight then
    let a := if t.columnOffset - width < -longest then
        { t with columnOffset := width - longest } else t
    if a.columnOffset > 0 then { a with columnOffset := 0 } else a
  else
    let half := Int.tdiv (longest - width) 2
    if half > 0 then
      let a := if t.columnOffset > half then { t with columnOffset := half } else t
      if a.columnOffset < -half then { a with columnOffset := -half } else a
    else { t with columnOffset := 0 }

/-- The "Move to highlighted regions" block of `Draw`: when regions are on,
a scroll-to-highlight is pending and a highlight range exists, center the
range if it fits the height (Go integer division truncates toward zero,
hence `Int.tdiv`), else top-align it. -/
def scrollToHighlightStep (height : Int) (t : TextView) : TextView :=
  if t.regions ∧ t.scrollToHighlights ∧ 0 ≤ t.fromHighlight then
    if t.toHighlight - t.fromHighlight + 1 < height then
      { t with lineOffset := Int.tdiv (t.fromHighlight + t.toHighlight - height) 2 }
    else { t with lineOffset := t.fromHighlight }
  else t

/-- The "Adjust line offset" block of `Draw`. -/
def lineOffsetClamp (height : Int) (len : Int) (t : TextView) : TextView :=
  let a := if t.lineOffset + height > len then { t with trackEnd := true } else t
  let b := if a.trackEnd then { a with lineOffset := len - height } else a
  if b.lineOffset < 0 then { b with lineOffset := 0 } else b

/-- The opening of `Draw`: record the page size, invalidate the index on
width change, and re-index. -/
def drawPrepare (width height : Int) (t : TextView) : TextView :=
  let t0 := { t with pageSize := height }
  let t1 := if width ≠ t0.lastWidth then
      { t0 with index := none, lastWidth := width }
    else { t0 with lastWidth := width }
  reindexBuffer width t1

/-- `Draw` (state effects only), resumed after `drawPrepare`. -/
def draw (width height : Int) (t : TextView) : TextView :=
  let t2 := drawPrepare width height t
  match t2.index with
  | none => t2
  | some idx =>
    let t3 := scrollToHighlightStep height t2
    let t4 := { t3 with scrollToHighlights := false }
    let t5 := lineOffsetClamp height (idx.length : Int) t4
    let t6 := columnClamp width t5
    if ¬t6.scrollable ∧ 0 < t6.lineOffset then
      let e := idx.getD t6.lineOffset.toNat
        { Line := 0, Pos := 0, NextPos := 0, Width := 0, Color := [], Region := [] }
      { t6 with buffer := t6.buffer.drop e.Line, index := none }
    else t6

/-! ## The region extractor (`GetRegionText`) -/

/-- Does the head match's range contain `pos`? -/
def inRange2 (ms : List (Nat × Nat)) (pos : Nat) : Bool :=
  match ms with
  | (s, e) :: _ => s ≤ pos && pos < e
  | [] => false

/-- Pop the head match when `pos` is its last byte. -/
def advance2 (ms : List (Nat × Nat)) (pos : Nat) : List (Nat × Nat) :=
  match ms with
  | (_, e) :: tl => if pos = e - 1 then tl else ms
  | [] => ms

/-- Does the head region match's range contain `pos`? -/
def inRange3 (ms : List (Nat × Nat × List Nat)) (pos : Nat) : Bool :=
  match ms with
  | (s, e, _) :: _ => s ≤ pos && pos < e
  | [] => false

/-- The per-line rune loop of `GetRegionText`: skip color tags, switch
regions at the last byte of a region tag (returning the collected text as
soon as the target region's terminating tag is reached — `Sum.inl`), and
collect the bytes of every rune scanned while inside the target region.
`Sum.inr` carries the accumulator and region id to the next line. -/
def grtLine (targetID : List Nat) :
    List (Nat × Nat) → Nat → List (Nat × Nat) → List (Nat × Nat × List Nat) →
    List Nat → List Nat → Sum (List Nat) (List Nat × List Nat)
  | [], _, _, _, cur, acc => Sum.inr (acc, cur)
  | (r, n) :: rest, pos, cms, rms, cur, acc =>
    if inRange2 cms pos then
      grtLine targetID rest (pos + n) (advance2 cms pos) rms cur acc
    else if inRange3 rms pos then
      match rms with
      | (_, ren, id) :: rmsTl =>
        if pos = ren - 1 then
          if cur = targetID then Sum.inl acc
          else grtLine targetID rest (pos + n) cms rmsTl id acc
        else grtLine targetID rest (pos + n) cms rms cur acc
      | [] => Sum.inr (acc, cur)
    else
      grtLine targetID rest (pos + n) cms rms cur
        (if cur = targetID then acc ++ encodeRune r else acc)

/-- The line loop of `GetRegionText`: scan each buffer line, appending a
newline after any line that ends still inside the target region; the
boolean reports whether the scan returned early (at the region's closing
tag). -/
def grtBuffer (dynamicColors : Bool) (targetID : List Nat) :
    List (List Nat) → List Nat → List Nat → Bool × List Nat
  | [], _, acc => (false, acc)
  | line :: rest, cur, acc =>
    let cms := if dynamicColors then (colorMatches line).map (fun m => (m.1, m.2.1)) else []
    let rms := regionMatches line
    match grtLine targetID (utf8Explode line) 0 cms rms cur acc with
    | Sum.inl result => (true, result)
    | Sum.inr p =>
      grtBuffer dynamicColors targetID rest p.2
        (if p.2 = targetID then p.1 ++ [10] else p.1)

/-- `GetRegionText(regionID)`: empty when regions are off or the id is
empty; on early return (the region was explicitly closed) the collected
text is returned as-is, otherwise the escape replacement is applied, as in
the source. -/
def GetRegionText (regionID : List Nat) (t : TextView) : List Nat :=
  if ¬t.regions ∨ regionID = [] then []
  else
    match grtBuffer t.dynamicColors regionID t.buffer [] [] with
    | (true, result) => result
    | (false, acc) => replaceEscapes acc (escapeMatches acc)

/-! ## Derived operations used by the claims -/

/-- The `reindex(width)` operation of the spec's Line Indexer contract:
`Draw`'s invalidate-on-width-change followed by `reindexBuffer` (the
`lastWidth` bookkeeping of `Draw`). -/
def reindexAtWidth (width : Int) (t : TextView) : TextView :=
  reindexBuffer width
    (if width ≠ t.lastWidth then { t with index := none, lastWidth := width }
     else { t with lastWidth := width })

/-- The from-scratch rebuild of `reindexBuffer`, as a pure function of the
buffer, the configuration flags and the width alone. -/
def pureIndex (t : TextView) (width : Int) : Option (List textViewIndex) :=
  if width < 1 then none
  else
    let carry0 : IndexCarry :=
      { color := t.textColor, regionID := [], fromHighlight := -1, toHighlight := -1 }
    let res := indexLines t.dynamicColors t.regions t.wrap t.wordWrap
      width.toNat t.highlights t.buffer 0 t.buffer [] carry0
    if res.1.isEmpty then none else some res.1

/-- The byte range `[Pos, NextPos)` of an index entry, read from the
buffer. -/
def entrySlice (buffer : List (List Nat)) (e : textViewIndex) : List Nat :=
  ((buffer.getD e.Line []).drop e.Pos).take (e.NextPos - e.Pos)

/-- Join logical lines with a line break between consecutive lines. -/
def joinLines : List (List Nat) → List Nat
  | [] => []
  | [l] => l
  | l :: rest => l ++ 10 :: joinLines rest

/-- The index entries' byte ranges, concatenated in display order with a
line break at each logical-line boundary. -/
def reassemble (t : TextView) : List Nat :=
  joinLines
    ((List.range t.buffer.length).map fun i =>
      ((t.index.getD []).filter (fun e => e.Line = i)).flatMap (entrySlice t.buffer))

/-- Line-break normalization: every `\r\n` becomes `\n`, everything else
is kept. -/
def normalizeNewlines : List Nat → List Nat
  | [] => []
  | 13 :: 10 :: rest => 10 :: normalizeNewlines rest
  | b :: rest => b :: normalizeNewlines rest

/-! ## Concrete inputs used by the scenarios -/

/-- The bytes of `"hello wonderful world"`. -/
def helloWonderfulWorld : List Nat :=
  [104, 101, 108, 108, 111, 32, 119, 111, 110, 100, 101, 114, 102, 117, 108,
   32, 119, 111, 114, 108, 100]

/-- A text view holding one logical line `"hello wonderful world"`, with
wrap and word-wrap on and dynamic colors and regions off (the defaults of
`NewTextView` plus word-wrap). -/
def wrapScenarioView : TextView :=
  { newTextView with wordWrap := true, buffer := [helloWonderfulWorld] }

/-- C1: With viewport width 10, wrap and word-wrap enabled, and dynamic
colors/regions disabled, indexing the single logical line
`"hello wonderful world"` produces exactly three display entries whose
carved pieces are `"hello "`, `"wonderful "` and `"world"`, each at most 10
display columns, and the trailing single space of the first two pieces is
excluded from the recorded width and end byte offset (entries end at bytes
5, 15, 21 with widths 5, 9, 5). -/
theorem wrapping_scenario_c1 :
    splitPieces true 10 (utf8Explode helloWonderfulWorld) =
      [utf8Explode [104, 101, 108, 108, 111, 32],
       utf8Explode [119, 111, 110, 100, 101, 114, 102, 117, 108, 32],
       utf8Explode [119, 111, 114, 108, 100]] ∧
    (∀ piece ∈ splitPieces true 10 (utf8Explode helloWonderfulWorld), wsum piece ≤ 10) ∧
    (reindexBuffer 10 wrapScenarioView).index = some
      [{ Line := 0, Pos := 0, NextPos := 5, Width := 5,
         Color := primaryTextColor, Region := [] },
       { Line := 0, Pos := 6, NextPos := 15, Width := 9,
         Color := primaryTextColor, Region := [] },
       { Line := 0, Pos := 16, NextPos := 21, Width := 5,
         Color := primaryTextColor, Region := [] }] := by
  refine ⟨by decide, by decide, by decide⟩

/-! ## Lemmas about the UTF-8 layer -/

/-- A single byte that is not ASCII never decodes as a complete rune. -/
theorem decodeRune_single_nonascii (b : Nat) (h : 0x80 ≤ b) :
    decodeRune [b] = (runeError, 1) := by
  have h1 : ¬ b < 0x80 := by omega
  unfold decodeRune
  simp only [if_neg h1]
  repeat' split
  all_goals rfl

/-- A byte string headed by a continuation byte decodes as an error of
size one. -/
theorem decodeRune_head_cont (b : Nat) (rest : List Nat)
    (h1 : 0x80 ≤ b) (h2 : b < 0xC2) :
    decodeRune (b :: rest) = (runeError, 1) := by
  have hn : ¬ b < 0x80 := by omega
  unfold decodeRune
  simp only [if_neg hn, if_pos h2]

/-- A two-byte string headed by a three- or four-byte header (or junk
`≥ 0xF5`) never decodes completely. -/
theorem decodeLastRuneAux_two_high (h c1 : Nat) (hh : 0xE0 ≤ h)
    (hc : 0x80 ≤ c1 ∧ c1 ≤ 0xBF) :
    (decodeLastRuneAux [c1, h]).1 = runeError := by
  have hrs : runeStart h = true := by unfold runeStart; simp; omega
  have hdec : (decodeRune [h, c1]).2 = 1 := by
    unfold decodeRune
    simp only [if_neg (show ¬ h < 0x80 by omega), if_neg (show ¬ h < 0xC2 by omega),
      if_neg (show ¬ h ≤ 0xDF by omega)]
    repeat' split
    all_goals rfl
  unfold decodeLastRuneAux
  simp only [if_neg (show ¬ c1 < 0x80 by omega), hrs, if_pos rfl]
  simp_all

/-- A three-byte string headed by a four-byte header (or junk) never
decodes completely. -/
theorem decodeLastRuneAux_three_high (h c1 c2 : Nat) (hh : 0xF0 ≤ h)
    (hc1 : 0x80 ≤ c1 ∧ c1 ≤ 0xBF) (hc2 : 0x80 ≤ c2 ∧ c2 ≤ 0xBF) :
    (decodeLastRuneAux [c2, c1, h]).1 = runeError := by
  have hrs : runeStart h = true := by unfold runeStart; simp; omega
  have hrs1 : runeStart c1 = false := by unfold runeStart; simp; omega
  have hdec : (decodeRune [h, c1, c2]).2 = 1 := by
    unfold decodeRune
    simp only [if_neg (show ¬ h < 0x80 by omega), if_neg (show ¬ h < 0xC2 by omega),
      if_neg (show ¬ h ≤ 0xDF by omega), if_neg (show ¬ h ≤ 0xEF by omega)]
    repeat' split
    all_goals rfl
  unfold decodeLastRuneAux
  simp only [if_neg (show ¬ c2 < 0x80 by omega), hrs, hrs1]
  simp_all

/-- A lone non-ASCII byte at the end is never a complete rune. -/
theorem decodeLastRuneAux_single (b : Nat) (h : 0x80 ≤ b) :
    (decodeLastRuneAux [b]).1 = runeError := by
  unfold decodeLastRuneAux
  simp only [if_neg (show ¬ b < 0x80 by omega)]
  simp [decodeRune_single_nonascii b h]

/-- A byte that is not a rune start is a continuation byte. -/
theorem not_runeStart (b : Nat) (h : ¬ runeStart b = true) :
    0x80 ≤ b ∧ b < 0xC0 := by
  unfold runeStart at h
  simp at h
  omega

/-- Appending older bytes in front cannot change the result of
`DecodeLastRune` when the newer bytes already end in a complete rune: the
backward scan only ever inspects the final rune. -/
theorem decodeLastRuneAux_append (b0 : Nat) (tl extra : List Nat)
    (h : (decodeLastRuneAux (b0 :: tl)).1 ≠ runeError) :
    decodeLastRuneAux (b0 :: (tl ++ extra)) = decodeLastRuneAux (b0 :: tl) := by
  by_cases hb0 : b0 < 0x80
  · unfold decodeLastRuneAux
    simp [hb0]
  · match tl with
    | [] =>
      exact absurd (decodeLastRuneAux_single b0 (by omega)) h
    | b1 :: tl1 =>
      by_cases hrs1 : runeStart b1
      · unfold decodeLastRuneAux
        simp [hb0, hrs1]
      · have hb1 := not_runeStart b1 hrs1
        match tl1 with
        | [] =>
          refine absurd ?_ h
          unfold decodeLastRuneAux
          simp only [if_neg hb0, Bool.not_eq_true] at *
          simp only [hrs1, Bool.false_eq_true, if_false]
          rw [decodeRune_head_cont b1 [b0] hb1.1 (by omega)]
          simp
        | b2 :: tl2 =>
          by_cases hrs2 : runeStart b2
          · unfold decodeLastRuneAux
            simp [hb0, hrs1, hrs2]
          · have hb2 := not_runeStart b2 hrs2
            match tl2 with
            | [] =>
              refine absurd ?_ h
              unfold decodeLastRuneAux
              simp only [if_neg hb0, Bool.not_eq_true] at *
              simp only [hrs1, hrs2, Bool.false_eq_true, if_false]
              rw [decodeRune_head_cont b2 [b1, b0] hb2.1 (by omega)]
              simp
            | b3 :: tl3 =>
              unfold decodeLastRuneAux
              simp [hb0, hrs1, hrs2]

/-- `DecodeLastRune` of `a ++ p` agrees with that of `p` whenever `p` is
nonempty and ends in a complete rune. -/
theorem decodeLastRune_append (a p : List Nat) (hp : p ≠ [])
    (h : (decodeLastRune p).1 ≠ runeError) :
    decodeLastRune (a ++ p) = decodeLastRune p := by
  unfold decodeLastRune at *
  rw [List.reverse_append]
  match hq : p.reverse with
  | [] =>
    exact absurd (by simpa using congrArg List.reverse hq) hp
  | b0 :: tl =>
    rw [hq] at h
    rw [List.cons_append]
    exact decodeLastRuneAux_append b0 tl a.reverse h

/-- C9: For every input byte slice `p` and every current engine state,
`write(p)` reports `len(p)` bytes accepted and a `nil` error — the write
operation never fails, for malformed, incomplete, or tag-containing input
alike. -/
theorem write_never_fails_c9 (t : TextView) (p : List Nat) :
    (write p t).2 = (p.length, none) := by
  unfold write
  split <;> rfl

/-- The state produced by `write` when the trailing-rune check on the new
bytes fires: everything is held over, nothing else changes. -/
theorem write_of_error_tail (t : TextView) (p : List Nat)
    (h : (decodeLastRune p).1 = runeError) :
    (write p t).1 = { t with recentBytes := t.recentBytes ++ p } := by
  unfold write
  simp [h]

/-- C10: For every write call whose combined pending bytes (held-over plus
new) end in a trailing invalid or incomplete UTF-8 rune, the call moves all
accumulated bytes into the held-over byte store and returns early: the
logical line buffer is left completely unchanged, the display-line index is
not invalidated by that call, and no field other than the held-over byte
store is modified. -/
theorem write_incomplete_frame_c10 (t : TextView) (p : List Nat)
    (h : (decodeLastRune (t.recentBytes ++ p)).1 = runeError) :
    (write p t).1 = { t with recentBytes := t.recentBytes ++ p } ∧
    (write p t).1.buffer = t.buffer ∧ (write p t).1.index = t.index := by
  have hp : (decodeLastRune p).1 = runeError := by
    by_cases hpe : p = []
    · subst hpe; rfl
    · by_contra hne
      rw [decodeLastRune_append t.recentBytes p hpe hne] at h
      exact hne h
  refine ⟨write_of_error_tail t p hp, ?_, ?_⟩ <;> rw [write_of_error_tail t p hp]

/-- Witness for C10 at a concrete input: a held-over empty store and a new
byte slice `[0xC3]` (the first byte of a two-byte rune). -/
theorem write_incomplete_frame_c10_witness :
    (decodeLastRune (newTextView.recentBytes ++ [0xC3])).1 = runeError ∧
    (write [0xC3] newTextView).1 =
      { newTextView with recentBytes := newTextView.recentBytes ++ [0xC3] } := by
  refine ⟨by decide, (write_incomplete_frame_c10 newTextView [0xC3] (by decide)).1⟩

/-- C5 counterexample: the source checks `utf8.DecodeLastRune(p)` on the
*new* bytes only, so when the second call carries exactly the remaining
continuation byte of the split character, that call re-buffers everything:
after writing `0xC3` and then `0xA9` (the two bytes of `é`), the logical
line buffer is still empty — the character does not appear at all after
the second call, contradicting the claim. -/
theorem streaming_partial_rune_c5_counterexample :
    (write [0xA9] (write [0xC3] newTextView).1).1.buffer = [] ∧
    (write [0xA9] (write [0xC3] newTextView).1).1.recentBytes = [0xC3, 0xA9] := by
  exact ⟨by decide, by decide⟩

/-- Every byte of a multi-byte UTF-8 encoding is at least `0x80`. -/
theorem encodeRune_multibyte_high (c : Nat) (hmb : 2 ≤ (encodeRune c).length) :
    ∀ b ∈ encodeRune c, 0x80 ≤ b := by
  unfold encodeRune at *
  by_cases h1 : c < 0x80
  · rw [if_pos h1] at hmb; simp at hmb
  · rw [if_neg h1] at hmb ⊢
    by_cases h2 : c < 0x800
    · rw [if_pos h2]; intro b hb; simp at hb; rcases hb with h | h <;> omega
    · rw [if_neg h2] at hmb ⊢
      by_cases h3 : 0xD800 ≤ c ∧ c ≤ 0xDFFF
      · rw [if_pos h3]; intro b hb; simp at hb; rcases hb with h | h | h <;> omega
      · rw [if_neg h3] at hmb ⊢
        by_cases h4 : c < 0x10000
        · rw [if_pos h4]; intro b hb; simp at hb; rcases hb with h | h | h <;> omega
        · rw [if_neg h4] at hmb ⊢
          by_cases h5 : c ≤ 0x10FFFF
          · rw [if_pos h5]; intro b hb; simp at hb; rcases hb with h | h | h | h <;> omega
          · rw [if_neg h5]; intro b hb; simp at hb; rcases hb with h | h | h <;> omega

/-- Tab expansion is the identity on tab-free byte strings. -/
theorem expandTabs_of_no_tab (s : List Nat) (h : ∀ b ∈ s, b ≠ 9) :
    expandTabs s = s := by
  induction s with
  | nil => rfl
  | cons b rest ih =>
    unfold expandTabs at *
    simp only [List.flatMap_cons]
    rw [if_neg (h b (by simp)), ih fun x hx => h x (by simp [hx])]
    rfl

/-- The newline splitter returns a single segment on break-free input. -/
theorem splitNLAux_no_breaks (s : List Nat) : ∀ acc,
    (∀ b ∈ s, b ≠ 10 ∧ b ≠ 13) → splitNLAux acc s = [acc.reverse ++ s] := by
  induction s with
  | nil => intro acc _; simp [splitNLAux]
  | cons b rest ih =>
    intro acc h
    rw [splitNLAux.eq_def]
    split
    · simp_all
    · rename_i heq; injection heq with hb _; exact absurd hb (h b (by simp)).2
    · rename_i heq; injection heq with hb _; exact absurd hb (h b (by simp)).1
    · rename_i heq
      injection heq with hb ht
      subst hb; subst ht
      rw [ih (b :: acc) fun x hx => h x (by simp [hx])]
      simp

/-- `splitNL` on break-free input. -/
theorem splitNL_no_breaks (s : List Nat) (h : ∀ b ∈ s, b ≠ 10 ∧ b ≠ 13) :
    splitNL s = [s] := by
  rw [splitNL, splitNLAux_no_breaks s [] h]
  rfl

/-- Every nonempty proper prefix of a multi-byte UTF-8 encoding ends in an
incomplete rune. -/
theorem encodeRune_take_incomplete (c k : Nat) (hmb : 2 ≤ (encodeRune c).length)
    (hk1 : 1 ≤ k) (hk2 : k < (encodeRune c).length) :
    (decodeLastRune ((encodeRune c).take k)).1 = runeError := by
  unfold encodeRune at *
  by_cases h1 : c < 0x80
  · rw [if_pos h1] at hmb; simp at hmb
  · rw [if_neg h1] at hmb hk2 ⊢
    by_cases h2 : c < 0x800
    · rw [if_pos h2] at hk2 ⊢
      simp only [List.length_cons, List.length_nil] at hk2
      have hk : k = 1 := by omega
      subst hk
      exact decodeLastRuneAux_single _ (by omega)
    · rw [if_neg h2] at hmb hk2 ⊢
      by_cases h3 : 0xD800 ≤ c ∧ c ≤ 0xDFFF
      · rw [if_pos h3] at hk2 ⊢
        simp only [List.length_cons, List.length_nil] at hk2
        have hk : k = 1 ∨ k = 2 := by omega
        rcases hk with hk | hk <;> subst hk
        · exact decodeLastRuneAux_single _ (by omega)
        · exact decodeLastRuneAux_two_high _ _ (by omega) (by omega)
      · rw [if_neg h3] at hmb hk2 ⊢
        by_cases h4 : c < 0x10000
        · rw [if_pos h4] at hk2 ⊢
          simp only [List.length_cons, List.length_nil] at hk2
          have hk : k = 1 ∨ k = 2 := by omega
          rcases hk with hk | hk <;> subst hk
          · exact decodeLastRuneAux_single _ (by omega)
          · exact decodeLastRuneAux_two_high _ _ (by omega) (by constructor <;> omega)
        · rw [if_neg h4] at hmb hk2 ⊢
          by_cases h5 : c ≤ 0x10FFFF
          · rw [if_pos h5] at hk2 ⊢
            simp only [List.length_cons, List.length_nil] at hk2
            have hk : k = 1 ∨ k = 2 ∨ k = 3 := by omega
            rcases hk with hk | hk | hk <;> subst hk
            · exact decodeLastRuneAux_single _ (by omega)
            · exact decodeLastRuneAux_two_high _ _ (by omega) (by constructor <;> omega)
            · exact decodeLastRuneAux_three_high _ _ _ (by omega)
                (by constructor <;> omega) (by constructor <;> omega)
          · rw [if_neg h5] at hk2 ⊢
            simp only [List.length_cons, List.length_nil] at hk2
            have hk : k = 1 ∨ k = 2 := by omega
            rcases hk with hk | hk <;> subst hk
            · exact decodeLastRuneAux_single _ (by omega)
            · exact decodeLastRuneAux_two_high _ _ (by omega) (by omega)

/-- `write` on a state with dynamic colors and regions off, fed input
whose new bytes end in a complete rune: everything pending is committed
through tab expansion and newline splitting, and the index is reset. -/
theorem write_commit_plain (t : TextView) (p : List Nat)
    (hdc : t.dynamicColors = false) (hrg : t.regions = false)
    (hOK : ¬ (decodeLastRune p).1 = runeError) :
    (write p t).1 = { t with
      recentBytes := []
      buffer := appendSegs t.buffer (splitNL (expandTabs (t.recentBytes ++ p)))
      index := none } := by
  unfold write
  rw [if_neg hOK]
  simp only [hdc, hrg, Bool.false_eq_true, if_false]

/-- C5 (amended): writing a multi-byte character split across two calls
never corrupts the buffer: the first call commits nothing and holds the
prefix over, and provided the second call's payload ends in a complete
rune (it carries trailing text after the continuation bytes — when it
carries *only* the continuation bytes it is held over again, see the
counterexample), the character appears whole exactly once after the second
call: the buffer is then the single line `encoding ++ rest`. -/
theorem streaming_partial_rune_c5_amended (c k : Nat) (rest : List Nat)
    (hmb : 2 ≤ (encodeRune c).length)
    (hk1 : 1 ≤ k) (hk2 : k < (encodeRune c).length)
    (hrest : ∀ b ∈ rest, b ≠ 9 ∧ b ≠ 10 ∧ b ≠ 13)
    (hcomplete : ¬ (decodeLastRune ((encodeRune c).drop k ++ rest)).1 = runeError) :
    (write ((encodeRune c).take k) newTextView).1.buffer = [] ∧
    (write ((encodeRune c).take k) newTextView).1.recentBytes = (encodeRune c).take k ∧
    (write ((encodeRune c).drop k ++ rest)
        (write ((encodeRune c).take k) newTextView).1).1.buffer =
      [encodeRune c ++ rest] ∧
    (write ((encodeRune c).drop k ++ rest)
        (write ((encodeRune c).take k) newTextView).1).1.recentBytes = [] := by
  have hpre := encodeRune_take_incomplete c k hmb hk1 hk2
  have hhigh := encodeRune_multibyte_high c hmb
  have ht1 : (write ((encodeRune c).take k) newTextView).1
      = { newTextView with recentBytes := (encodeRune c).take k } := by
    rw [write_of_error_tail _ _ hpre]
    rfl
  rw [ht1]
  have hall : ∀ b ∈ encodeRune c ++ rest, b ≠ 9 ∧ b ≠ 10 ∧ b ≠ 13 := by
    intro b hb
    rcases List.mem_append.1 hb with hb | hb
    · have := hhigh b hb; refine ⟨by omega, by omega, by omega⟩
    · exact hrest b hb
  have hkey : (write ((encodeRune c).drop k ++ rest)
      ({ newTextView with recentBytes := (encodeRune c).take k } : TextView)).1.buffer
        = [encodeRune c ++ rest] ∧
      (write ((encodeRune c).drop k ++ rest)
      ({ newTextView with recentBytes := (encodeRune c).take k } : TextView)).1.recentBytes
        = [] := by
    rw [write_commit_plain _ _ rfl rfl hcomplete]
    have hnb : ((encodeRune c).take k) ++ ((encodeRune c).drop k ++ rest)
        = encodeRune c ++ rest := by
      rw [← List.append_assoc, List.take_append_drop]
    refine ⟨?_, rfl⟩
    dsimp only [newTextView]
    rw [hnb, expandTabs_of_no_tab _ (fun b hb => (hall b hb).1),
      splitNL_no_breaks _ (fun b hb => ⟨(hall b hb).2.1, (hall b hb).2.2⟩)]
    rfl
  exact ⟨rfl, rfl, hkey.1, hkey.2⟩

/-- Witness for the amended C5 at `é` (U+00E9) split as `[0xC3]` then
`[0xA9, 'a']`. -/
theorem streaming_partial_rune_c5_amended_witness :
    2 ≤ (encodeRune 0xE9).length ∧
    (write ((encodeRune 0xE9).drop 1 ++ [97])
        (write ((encodeRune 0xE9).take 1) newTextView).1).1.buffer =
      [encodeRune 0xE9 ++ [97]] :=
  ⟨by decide,
   (streaming_partial_rune_c5_amended 0xE9 1 [97] (by decide) (by decide)
     (by decide) (by decide) (by decide)).2.2.1⟩

/-! ## Lemmas about the draw pipeline -/

/-- Column clamping never touches the vertical state or the flags. -/
theorem columnClamp_vertical (width : Int) (t : TextView) :
    (columnClamp width t).lineOffset = t.lineOffset ∧
    (columnClamp width t).trackEnd = t.trackEnd ∧
    (columnClamp width t).scrollToHighlights = t.scrollToHighlights := by
  unfold columnClamp
  dsimp only
  repeat' split
  all_goals exact ⟨rfl, rfl, rfl⟩

/-- After the vertical clamp the line offset is never negative. -/
theorem lineOffsetClamp_nonneg (height len : Int) (t : TextView) :
    0 ≤ (lineOffsetClamp height len t).lineOffset := by
  unfold lineOffsetClamp
  dsimp only
  split <;> split <;> split <;> simp_all

/-- After the vertical clamp, `trackEnd` implies
`lineOffset = max (len - height) 0`. -/
theorem lineOffsetClamp_trackEnd (height len : Int) (t : TextView)
    (h : (lineOffsetClamp height len t).trackEnd = true) :
    (lineOffsetClamp height len t).lineOffset = max (len - height) 0 := by
  unfold lineOffsetClamp at h ⊢
  dsimp only at h ⊢
  by_cases h1 : t.lineOffset + height > len
  · rw [if_pos h1] at h ⊢
    rw [if_pos (show ({ t with trackEnd := true } : TextView).trackEnd = true from rfl)] at h ⊢
    by_cases h2 : len - height < 0
    · rw [if_pos h2]
      dsimp only
      omega
    · rw [if_neg h2]
      dsimp only
      omega
  · rw [if_neg h1] at h ⊢
    by_cases h2 : t.trackEnd = true
    · rw [if_pos h2] at h ⊢
      by_cases h3 : len - height < 0
      · rw [if_pos h3]
        dsimp only
        omega
      · rw [if_neg h3]
        dsimp only
        omega
    · rw [if_neg h2] at h ⊢
      by_cases h4 : t.lineOffset < 0
      · rw [if_pos h4] at h
        exact absurd h h2
      · rw [if_neg h4] at h
        exact absurd h h2

/-- The vertical clamp forces `trackEnd` whenever the incoming offset plus
the height overshoots the index length. -/
theorem lineOffsetClamp_forces (height len : Int) (t : TextView)
    (h : t.lineOffset + height > len) :
    (lineOffsetClamp height len t).trackEnd = true := by
  unfold lineOffsetClamp
  dsimp only
  rw [if_pos h]
  rw [if_pos (show ({ t with trackEnd := true } : TextView).trackEnd = true from rfl)]
  split <;> rfl

/-- The highlight scroll never touches `trackEnd`. -/
theorem scrollToHighlightStep_trackEnd (height : Int) (t : TextView) :
    (scrollToHighlightStep height t).trackEnd = t.trackEnd := by
  unfold scrollToHighlightStep
  repeat' split
  all_goals rfl

/-- The vertical clamp never touches the scroll-to-highlight flag. -/
theorem lineOffsetClamp_flags (height len : Int) (t : TextView) :
    (lineOffsetClamp height len t).scrollToHighlights = t.scrollToHighlights := by
  unfold lineOffsetClamp
  dsimp only
  split <;> split <;> split <;> rfl

/-- When the re-index stage yields an index, the drawn state's vertical
fields are those of the clamping pipeline (the final purge step touches
only the buffer and the index). -/
theorem draw_of_index (width height : Int) (t : TextView) (idx : List textViewIndex)
    (h : (drawPrepare width height t).index = some idx) :
    ((draw width height t).lineOffset =
      (columnClamp width (lineOffsetClamp height (idx.length : Int)
        { scrollToHighlightStep height (drawPrepare width height t) with
          scrollToHighlights := false })).lineOffset) ∧
    ((draw width height t).trackEnd =
      (columnClamp width (lineOffsetClamp height (idx.length : Int)
        { scrollToHighlightStep height (drawPrepare width height t) with
          scrollToHighlights := false })).trackEnd) ∧
    ((draw width height t).scrollToHighlights =
      (columnClamp width (lineOffsetClamp height (idx.length : Int)
        { scrollToHighlightStep height (drawPrepare width height t) with
          scrollToHighlights := false })).scrollToHighlights) := by
  unfold draw
  dsimp only
  rw [h]
  dsimp only
  split
  · exact ⟨rfl, rfl, rfl⟩
  · exact ⟨rfl, rfl, rfl⟩

/-- C6: On every draw whose re-indexed state has an index: if the line
offset entering the adjustment (after the highlight scroll) plus the
height exceeds the index length then `trackEnd` is forced; whenever
`trackEnd` holds after the draw the line offset equals
`max (len(index) - height) 0`; and the final line offset is never
negative. -/
theorem draw_vertical_clamp_c6 (t : TextView) (width height : Int)
    (idx : List textViewIndex)
    (h : (drawPrepare width height t).index = some idx) :
    0 ≤ (draw width height t).lineOffset ∧
    ((draw width height t).trackEnd = true →
      (draw width height t).lineOffset = max ((idx.length : Int) - height) 0) ∧
    ((scrollToHighlightStep height (drawPrepare width height t)).lineOffset + height >
        (idx.length : Int) → (draw width height t).trackEnd = true) := by
  obtain ⟨hl, ht, _⟩ := draw_of_index width height t idx h
  refine ⟨?_, ?_, ?_⟩
  · rw [hl, (columnClamp_vertical width _).1]
    exact lineOffsetClamp_nonneg height (idx.length : Int) _
  · intro htr
    rw [ht, (columnClamp_vertical width _).2.1] at htr
    rw [hl, (columnClamp_vertical width _).1]
    exact lineOffsetClamp_trackEnd height (idx.length : Int) _ htr
  · intro hover
    rw [ht, (columnClamp_vertical width _).2.1]
    exact lineOffsetClamp_forces height (idx.length : Int) _ hover

/-- Witness for C6: three wrapped lines at width 10 produce nine display
entries; with `trackEnd` set and height 2 the drawn offset is `9 - 2`. -/
theorem draw_vertical_clamp_c6_witness :
    ((drawPrepare 10 2 { newTextView with
        trackEnd := true
        buffer := [helloWonderfulWorld, helloWonderfulWorld, helloWonderfulWorld] }).index.isSome = true) ∧
    0 ≤ (draw 10 2 { newTextView with
        trackEnd := true
        buffer := [helloWonderfulWorld, helloWonderfulWorld, helloWonderfulWorld] }).lineOffset := by
  refine ⟨by decide, ?_⟩
  obtain ⟨hidx, hsome⟩ := Option.isSome_iff_exists.1 (show (drawPrepare 10 2
    { newTextView with
      trackEnd := true
      buffer := [helloWonderfulWorld, helloWonderfulWorld, helloWonderfulWorld] }).index.isSome = true by decide)
  exact (draw_vertical_clamp_c6 _ 10 2 hidx hsome).1

/-- C7: Whenever a draw occurs with the scroll-to-highlight flag pending,
regions enabled and a highlight range present, the highlight scroll sets
the line offset to `(fromHighlight + toHighlight - height) / 2` (Go
division, truncated toward zero) when the highlighted range's line count
fits strictly within the height, and to `fromHighlight` otherwise; the
flag is consumed by the draw regardless of outcome. -/
theorem scroll_to_highlight_c7 (t : TextView) (width height : Int)
    (idx : List textViewIndex)
    (h : (drawPrepare width height t).index = some idx)
    (hreg : (drawPrepare width height t).regions = true)
    (hpend : (drawPrepare width height t).scrollToHighlights = true)
    (hfrom : 0 ≤ (drawPrepare width height t).fromHighlight) :
    ((scrollToHighlightStep height (drawPrepare width height t)).lineOffset =
      if (drawPrepare width height t).toHighlight -
          (drawPrepare width height t).fromHighlight + 1 < height then
        Int.tdiv ((drawPrepare width height t).fromHighlight +
          (drawPrepare width height t).toHighlight - height) 2
      else (drawPrepare width height t).fromHighlight) ∧
    (draw width height t).scrollToHighlights = false := by
  constructor
  · unfold scrollToHighlightStep
    rw [if_pos ⟨hreg, hpend, hfrom⟩]
    split
    · rfl
    · rfl
  · obtain ⟨_, _, hs⟩ := draw_of_index width height t idx h
    rw [hs, (columnClamp_vertical width _).2.2, lineOffsetClamp_flags]

/-- Witness for C7: a highlighted region spanning display lines 3–5 at
height 10; the highlight scroll computes `(3 + 5 - 10) / 2 = -1`. -/
theorem scroll_to_highlight_c7_witness :
    (scrollToHighlightStep 10 (drawPrepare 20 10 { newTextView with
        regions := true
        scrollToHighlights := true
        highlights := [[97]]
        lineOffset := 0
        buffer := [[120], [120], [120], [91, 34, 97, 34, 93, 104], [120],
          [91, 34, 97, 34, 93, 104, 91, 34, 34, 93], [120], [120], [120],
          [120], [120], [120]] })).lineOffset = -1 := by
  obtain ⟨idx, hidx⟩ := Option.isSome_iff_exists.1 (show (drawPrepare 20 10
    { newTextView with
        regions := true
        scrollToHighlights := true
        highlights := [[97]]
        lineOffset := 0
        buffer := [[120], [120], [120], [91, 34, 97, 34, 93, 104], [120],
          [91, 34, 97, 34, 93, 104, 91, 34, 34, 93], [120], [120], [120],
          [120], [120], [120]] }).index.isSome = true by decide)
  have := (scroll_to_highlight_c7 _ 20 10 idx hidx (by decide) (by decide)
    (by decide)).1
  rw [this]
  decide

/-! ## Lemmas about `reindexBuffer` and C3 -/

/-- `reindexBuffer` returns its argument unchanged when an index is
present. -/
theorem reindexBuffer_of_some (width : Int) (t : TextView)
    (h : t.index.isSome = true) : reindexBuffer width t = t := by
  unfold reindexBuffer
  rw [if_pos h]

/-- Without an index, `reindexBuffer` rebuilds exactly `pureIndex`. -/
theorem reindexBuffer_of_none (width : Int) (t : TextView)
    (h : t.index = none) : (reindexBuffer width t).index = pureIndex t width := by
  unfold reindexBuffer pureIndex
  rw [h]
  dsimp only [Option.isSome]
  rw [if_neg (by simp)]
  split
  · rfl
  · rfl

/-- `reindexBuffer` only writes the index, the highlight range and the
longest line; every input field of the rebuild is preserved. -/
theorem reindexBuffer_fields (width : Int) (t : TextView) :
    (reindexBuffer width t).buffer = t.buffer ∧
    (reindexBuffer width t).textColor = t.textColor ∧
    (reindexBuffer width t).highlights = t.highlights ∧
    (reindexBuffer width t).dynamicColors = t.dynamicColors ∧
    (reindexBuffer width t).regions = t.regions ∧
    (reindexBuffer width t).wrap = t.wrap ∧
    (reindexBuffer width t).wordWrap = t.wordWrap ∧
    (reindexBuffer width t).lastWidth = t.lastWidth := by
  unfold reindexBuffer
  split
  · exact ⟨rfl, rfl, rfl, rfl, rfl, rfl, rfl, rfl⟩
  · dsimp only
    split
    · exact ⟨rfl, rfl, rfl, rfl, rfl, rfl, rfl, rfl⟩
    · exact ⟨rfl, rfl, rfl, rfl, rfl, rfl, rfl, rfl⟩

/-- `pureIndex` only reads the buffer, the flags, the colors and the
highlights. -/
theorem pureIndex_congr (t t' : TextView) (width : Int)
    (hb : t.buffer = t'.buffer) (htc : t.textColor = t'.textColor)
    (hh : t.highlights = t'.highlights)
    (hdc : t.dynamicColors = t'.dynamicColors) (hrg : t.regions = t'.regions)
    (hw : t.wrap = t'.wrap) (hww : t.wordWrap = t'.wordWrap) :
    pureIndex t width = pureIndex t' width := by
  unfold pureIndex
  rw [hb, htc, hh, hdc, hrg, hw, hww]

/-- `reindexAtWidth` rebuilds from scratch whenever the index is absent or
was built for another width. -/
theorem reindexAtWidth_invalid (width : Int) (t : TextView)
    (h : ¬ (t.index.isSome = true ∧ t.lastWidth = width)) :
    (reindexAtWidth width t).index = pureIndex t width := by
  unfold reindexAtWidth
  by_cases hw : width ≠ t.lastWidth
  · rw [if_pos hw]
    rw [reindexBuffer_of_none width _ rfl]
    exact pureIndex_congr _ _ width rfl rfl rfl rfl rfl rfl rfl
  · rw [if_neg hw]
    have hnone : t.index = none := by
      match hidx : t.index with
      | none => rfl
      | some v =>
        exact absurd ⟨by rw [hidx]; rfl, by omega⟩ h
    rw [reindexBuffer_of_none width _ (show ({ t with lastWidth := width } :
      TextView).index = none from hnone)]
    exact pureIndex_congr _ _ width rfl rfl rfl rfl rfl rfl rfl

/-- `reindexAtWidth` with a valid index for the width is the identity (up
to the `lastWidth` bookkeeping, which is already `width`). -/
theorem reindexAtWidth_of_some (width : Int) (t : TextView)
    (h : t.index.isSome = true) (hlw : t.lastWidth = width) :
    reindexAtWidth width t = t := by
  unfold reindexAtWidth
  rw [if_neg (by omega)]
  rw [reindexBuffer_of_some width _ (show ({ t with lastWidth := width } :
    TextView).index.isSome = true from h)]
  rw [← hlw]

/-- `reindexAtWidth` preserves the rebuild's input fields. -/
theorem reindexAtWidth_fields (width : Int) (t : TextView) :
    (reindexAtWidth width t).buffer = t.buffer ∧
    (reindexAtWidth width t).textColor = t.textColor ∧
    (reindexAtWidth width t).highlights = t.highlights ∧
    (reindexAtWidth width t).dynamicColors = t.dynamicColors ∧
    (reindexAtWidth width t).regions = t.regions ∧
    (reindexAtWidth width t).wrap = t.wrap ∧
    (reindexAtWidth width t).wordWrap = t.wordWrap := by
  unfold reindexAtWidth
  split
  all_goals
    obtain h := reindexBuffer_fields width _
    exact ⟨h.1, h.2.1, h.2.2.1, h.2.2.2.1, h.2.2.2.2.1, h.2.2.2.2.2.1, h.2.2.2.2.2.2.1⟩

/-- `reindexAtWidth` records the width it ran at. -/
theorem reindexAtWidth_lastWidth (width : Int) (t : TextView) :
    (reindexAtWidth width t).lastWidth = width := by
  unfold reindexAtWidth
  split
  all_goals exact (reindexBuffer_fields width _).2.2.2.2.2.2.2

/-- C3: `reindex(width)` is idempotent — a second call at the same width
with no intervening mutation yields a bit-identical index — and whenever
the index is not valid for `width` (absent, or last built at another
width) it is rebuilt from scratch as a pure function of the buffer, the
flags and the width. -/
theorem reindex_contract_c3 (t : TextView) (width : Int) :
    (reindexAtWidth width (reindexAtWidth width t)).index =
      (reindexAtWidth width t).index ∧
    (¬ (t.index.isSome = true ∧ t.lastWidth = width) →
      (reindexAtWidth width t).index = pureIndex t width) := by
  refine ⟨?_, reindexAtWidth_invalid width t⟩
  by_cases hsome : (reindexAtWidth width t).index.isSome = true
  · rw [reindexAtWidth_of_some width _ hsome (reindexAtWidth_lastWidth width t)]
  · have hnone : (reindexAtWidth width t).index = none := by
      match hidx : (reindexAtWidth width t).index with
      | none => rfl
      | some v => exact absurd (by rw [hidx]; rfl) hsome
    rw [reindexAtWidth_invalid width _ (fun hc => hsome hc.1)]
    have hfields := reindexAtWidth_fields width t
    rw [pureIndex_congr _ t width hfields.1 hfields.2.1 hfields.2.2.1
      hfields.2.2.2.1 hfields.2.2.2.2.1 hfields.2.2.2.2.2.1 hfields.2.2.2.2.2.2]
    by_cases hv : t.index.isSome = true ∧ t.lastWidth = width
    · rw [reindexAtWidth_of_some width t hv.1 hv.2] at hnone
      rw [hnone] at hv
      exact absurd hv.1 (by simp)
    · rw [reindexAtWidth_invalid width t hv]

/-- Witness for C3 at a concrete fresh view holding one line `"a"`. -/
theorem reindex_contract_c3_witness :
    (reindexAtWidth 5 (reindexAtWidth 5 { newTextView with buffer := [[97]] })).index =
      (reindexAtWidth 5 { newTextView with buffer := [[97]] }).index ∧
    (reindexAtWidth 5 { newTextView with buffer := [[97]] }).index =
      pureIndex { newTextView with buffer := [[97]] } 5 :=
  ⟨(reindex_contract_c3 { newTextView with buffer := [[97]] } 5).1,
   (reindex_contract_c3 { newTextView with buffer := [[97]] } 5).2 (by decide)⟩

/-! ## Lemmas about splitting and the round trip (C2) -/

/-- `decodeRune` consumes at least one and at most all bytes of a
nonempty string. -/
theorem decodeRune_size (s : List Nat) (h : s ≠ []) :
    1 ≤ (decodeRune s).2 ∧ (decodeRune s).2 ≤ s.length := by
  match s with
  | [] => exact absurd rfl h
  | b0 :: rest =>
    unfold decodeRune
    dsimp only
    split
    · exact ⟨le_rfl, by simp⟩
    · split
      · exact ⟨le_rfl, by simp⟩
      · split
        · match rest with
          | [] => exact ⟨le_rfl, by simp⟩
          | b1 :: tl =>
            dsimp only
            repeat' split
            all_goals exact ⟨by omega, by simp only [List.length_cons]; omega⟩
        · split
          · match rest with
            | [] => exact ⟨le_rfl, by simp⟩
            | [b1] => exact ⟨le_rfl, by simp⟩
            | b1 :: b2 :: tl =>
              dsimp only
              repeat' split
              all_goals exact ⟨by omega, by simp only [List.length_cons]; omega⟩
          · split
            · match rest with
              | [] => exact ⟨le_rfl, by simp⟩
              | [b1] => exact ⟨le_rfl, by simp⟩
              | [b1, b2] => exact ⟨le_rfl, by simp⟩
              | b1 :: b2 :: b3 :: tl =>
                dsimp only
                repeat' split
                all_goals exact ⟨by omega, by simp only [List.length_cons]; omega⟩
            · exact ⟨le_rfl, by simp⟩

/-- The byte sizes of the decoded runes sum to the byte length. -/
theorem utf8ExplodeAux_bsum : ∀ (fuel : Nat) (s : List Nat), s.length ≤ fuel →
    bsum (utf8ExplodeAux fuel s) = s.length := by
  intro fuel
  induction fuel with
  | zero =>
    intro s hs
    have : s = [] := List.eq_nil_of_length_eq_zero (by omega)
    subst this
    rfl
  | succ fuel ih =>
    intro s hs
    match s with
    | [] => rfl
    | b :: rest =>
      have hsz := decodeRune_size (b :: rest) (by simp)
      have h1 : (b :: rest).length = rest.length + 1 := by simp
      rw [h1] at hsz hs
      show (decodeRune (b :: rest)).2 +
        bsum (utf8ExplodeAux fuel ((b :: rest).drop (decodeRune (b :: rest)).2)) =
          (b :: rest).length
      rw [ih _ (by rw [List.length_drop, h1]; omega), List.length_drop, h1]
      omega

/-- The byte sizes of `utf8Explode` sum to the byte length. -/
theorem bsum_utf8Explode (s : List Nat) : bsum (utf8Explode s) = s.length :=
  utf8ExplodeAux_bsum s.length s le_rfl

/-- `bsum` distributes over append. -/
theorem bsum_append (a b : List (Nat × Nat)) : bsum (a ++ b) = bsum a + bsum b := by
  induction a with
  | nil => simp [bsum]
  | cons p ps ih => simp [bsum] at *; omega

/-- The greedy cut takes at most the whole string. -/
theorem greedyCut_le (s : List (Nat × Nat)) : ∀ w, greedyCut s w ≤ s.length := by
  induction s with
  | nil => intro w; simp [greedyCut]
  | cons p ps ih =>
    intro w
    unfold greedyCut
    split
    · have := ih (w - runeWidth p.1)
      simp
      omega
    · simp

/-- The leading space run is at most the whole string. -/
theorem leadSpaces_le (s : List (Nat × Nat)) : leadSpaces s ≤ s.length := by
  induction s with
  | nil => simp [leadSpaces]
  | cons p ps ih =>
    unfold leadSpaces
    split
    · simp; omega
    · simp

/-- Bounds for the boundary scanner. -/
theorem lastBoundaryEndAux_bounds (s : List (Nat × Nat)) : ∀ (pos : Nat)
    (acc : Option Nat) (e : Nat), lastBoundaryEndAux s pos acc = some e →
    acc = some e ∨ (pos < e ∧ e ≤ pos + s.length) := by
  induction s with
  | nil =>
    intro pos acc e h
    exact Or.inl h
  | cons p ps ih =>
    intro pos acc e h
    unfold lastBoundaryEndAux at h
    rcases ih (pos + 1) _ e h with hacc | hbound
    · split at hacc
      · right
        have : e = pos + 1 := by injection hacc; omega
        simp
        omega
      · left
        exact hacc
    · right
      constructor
      · omega
      · simp
        omega

/-- The end of the last boundary match lies within the string. -/
theorem lastBoundaryEnd_bounds (s : List (Nat × Nat)) (e : Nat)
    (h : lastBoundaryEnd s = some e) : 1 ≤ e ∧ e ≤ s.length := by
  rcases lastBoundaryEndAux_bounds s 0 none e h with hacc | hb
  · exact absurd hacc (by simp)
  · omega

/-- A carved piece never exceeds the remaining line. -/
theorem pieceLen_le (ww : Bool) (w : Nat) (s : List (Nat × Nat)) :
    pieceLen ww w s ≤ s.length := by
  unfold pieceLen truncCut
  dsimp only
  split
  · rw [if_neg (by simp)]
  · split
    · match hbe : lastBoundaryEnd
        (s.take (greedyCut s w + leadSpaces (s.drop (greedyCut s w)))) with
      | some e =>
        have h1 := (lastBoundaryEnd_bounds _ e hbe).2
        have h2 := leadSpaces_le (s.drop (greedyCut s w))
        have h3 := greedyCut_le s w
        rw [List.length_take] at h1
        rw [List.length_drop] at h2
        dsimp only
        omega
      | none =>
        have h2 := leadSpaces_le (s.drop (greedyCut s w))
        have h3 := greedyCut_le s w
        rw [List.length_drop] at h2
        dsimp only
        omega
    · exact greedyCut_le s w

/-- The truncation cut takes at least one rune when the line is nonempty
and every rune fits the width. -/
theorem truncCut_pos (w : Nat) (s : List (Nat × Nat)) (hne : s ≠ [])
    (hw : ∀ pr ∈ s, runeWidth pr.1 ≤ w) : 1 ≤ truncCut s w := by
  unfold truncCut
  split
  · match s with
    | p :: ps => simp
  · match s with
    | p :: ps =>
      unfold greedyCut
      rw [if_pos (hw p (by simp))]
      omega

/-- A carved piece is nonempty when the line is nonempty and every rune
fits the width (exactly the situation in which the Go loop makes
progress). -/
theorem pieceLen_pos (ww : Bool) (w : Nat) (s : List (Nat × Nat)) (hne : s ≠ [])
    (hw : ∀ pr ∈ s, runeWidth pr.1 ≤ w) : 1 ≤ pieceLen ww w s := by
  have ht := truncCut_pos w s hne hw
  unfold pieceLen
  dsimp only
  split
  · match hbe : lastBoundaryEnd
      (s.take (truncCut s w + leadSpaces (s.drop (truncCut s w)))) with
    | some e => exact (lastBoundaryEnd_bounds _ e hbe).1
    | none =>
      dsimp only
      omega
  · exact ht

/-- The carved pieces concatenate back to the full line. -/
theorem splitPiecesAux_flatten (ww : Bool) (w : Nat) : ∀ (fuel : Nat)
    (s : List (Nat × Nat)), s.length ≤ fuel → (∀ pr ∈ s, runeWidth pr.1 ≤ w) →
    (splitPiecesAux fuel ww w s).flatten = s := by
  intro fuel
  induction fuel with
  | zero =>
    intro s hs _
    have : s = [] := List.eq_nil_of_length_eq_zero (by omega)
    subst this
    rfl
  | succ fuel ih =>
    intro s hs hw
    unfold splitPiecesAux
    by_cases hne : s.isEmpty
    · rw [if_pos hne]
      rw [List.isEmpty_iff] at hne
      subst hne
      rfl
    · rw [if_neg hne]
      have hne' : s ≠ [] := fun hn => hne (by simp [hn])
      have hp := pieceLen_pos ww w s hne' hw
      have hl := pieceLen_le ww w s
      dsimp only
      rw [List.flatten_cons]
      rw [ih (s.drop (pieceLen ww w s)) (by rw [List.length_drop]; omega)
        (fun pr hpr => hw pr (List.mem_of_mem_drop hpr))]
      exact List.take_append_drop _ s

/-- `splitPieces` always concatenates back to the line under the width
side condition. -/
theorem splitPieces_flatten (ww : Bool) (w : Nat) (s : List (Nat × Nat))
    (hw : ∀ pr ∈ s, runeWidth pr.1 ≤ w) : (splitPieces ww w s).flatten = s :=
  splitPiecesAux_flatten ww w (s.length + 1) s (by omega) hw

/-- With no tag matches pending, `buildPieces` appends one entry per piece,
each recording the running byte position and the current line, and the
entries' byte ranges tile the line contiguously. -/
theorem buildPieces_plain (hl : List (List Nat)) (i : Nat) :
    ∀ (pieces : List (List (Nat × Nat))) (st : ShiftState)
      (entries : List textViewIndex),
    st.colorMs = [] → st.regionMs = [] → st.escMs = [] →
    ∃ G, (buildPieces hl i pieces st entries).1 = entries ++ G ∧
      (buildPieces hl i pieces st entries).2 =
        { st with originalPos := st.originalPos + bsum pieces.flatten } ∧
      G.length = pieces.length ∧
      (∀ e ∈ G, e.Line = i) ∧
      (∀ buffer : List (List Nat),
        G.flatMap (entrySlice buffer) =
          ((buffer.getD i []).drop st.originalPos).take (bsum pieces.flatten)) := by
  intro pieces
  induction pieces with
  | nil =>
    intro st entries hc hr he
    exact ⟨[], by simp [buildPieces], rfl, rfl, by simp, by simp [bsum]⟩
  | cons piece rest ih =>
    intro st entries hc hr he
    have hbsum : bsum (piece :: rest).flatten = bsum piece + bsum rest.flatten := by
      rw [List.flatten_cons, bsum_append]
    have hstep : buildPieces hl i (piece :: rest) st entries =
        buildPieces hl i rest { st with originalPos := st.originalPos + bsum piece }
          (entries ++ [(⟨i, st.originalPos, st.originalPos + bsum piece,
            wsum piece, st.color, st.regionID⟩ : textViewIndex)]) := by
      conv_lhs => rw [buildPieces]
      rw [show st.colorMs.length + st.regionMs.length + st.escMs.length = 0 by
        rw [hc, hr, he]; rfl]
      simp only [shiftTagsAux]
    rw [hstep]
    obtain ⟨G', hG1, hG2, hG3, hG4, hG5⟩ := ih
      { st with originalPos := st.originalPos + bsum piece }
      (entries ++ [(⟨i, st.originalPos, st.originalPos + bsum piece,
        wsum piece, st.color, st.regionID⟩ : textViewIndex)]) hc hr he
    refine ⟨(⟨i, st.originalPos, st.originalPos + bsum piece,
        wsum piece, st.color, st.regionID⟩ : textViewIndex) :: G', ?_, ?_, ?_, ?_, ?_⟩
    · rw [hG1]
      simp
    · rw [hG2]
      show ({ st with originalPos := (st.originalPos + bsum piece) + bsum rest.flatten } :
        ShiftState) = _
      rw [hbsum]
      have harith : st.originalPos + bsum piece + bsum rest.flatten =
          st.originalPos + (bsum piece + bsum rest.flatten) := by omega
      rw [harith]
    · simp [hG3]
    · intro e he2
      rcases List.mem_cons.1 he2 with h | h
      · rw [h]
      · exact hG4 e h
    · intro buffer
      rw [List.flatMap_cons, hG5 buffer, hbsum]
      show entrySlice buffer (⟨i, st.originalPos, st.originalPos + bsum piece,
        wsum piece, st.color, st.regionID⟩ : textViewIndex) ++ _ = _
      unfold entrySlice
      dsimp only
      rw [Nat.add_sub_cancel_left, List.take_add]
      congr 1
      rw [List.drop_drop]

/-- Splitting a nonempty line yields at least one piece. -/
theorem splitPieces_ne_nil (ww : Bool) (w : Nat) (s : List (Nat × Nat))
    (h : s ≠ []) : splitPieces ww w s ≠ [] := by
  unfold splitPieces splitPiecesAux
  rw [if_neg (by simpa using h)]
  simp

/-- Decoding a nonempty byte string yields at least one rune. -/
theorem utf8Explode_ne_nil (s : List Nat) (h : s ≠ []) : utf8Explode s ≠ [] := by
  unfold utf8Explode
  match s with
  | b :: rest =>
    show utf8ExplodeAux (rest.length + 1) (b :: rest) ≠ []
    unfold utf8ExplodeAux
    simp

/-- One plainly-configured line (dynamic colors, regions and word-wrap all
off) contributes a nonempty block of entries for its own line number whose
byte ranges tile the whole line, and leaves the carried state unchanged. -/
theorem indexLine_plain (wrapFlag : Bool) (w : Nat) (hl : List (List Nat))
    (buffer : List (List Nat)) (i : Nat) (line : List Nat)
    (entries : List textViewIndex) (carry : IndexCarry)
    (hline : buffer.getD i [] = line)
    (hw : ∀ pr ∈ utf8Explode line, runeWidth pr.1 ≤ w) :
    ∃ G, indexLine false false wrapFlag false w hl buffer i line entries carry =
        (entries ++ G, carry) ∧
      1 ≤ G.length ∧
      (∀ e ∈ G, e.Line = i) ∧
      G.flatMap (entrySlice buffer) = line := by
  unfold indexLine
  simp only [Bool.false_eq_true, if_false, Bool.false_or, Bool.or_self,
    false_and, and_false]
  obtain ⟨G, h1, h2, h3, h4, h5⟩ := buildPieces_plain hl i
    (if wrapFlag = true ∧ ¬line.isEmpty = true then
      splitPieces false w (utf8Explode line) else [utf8Explode line])
    ⟨0, [], [], [], carry.color, carry.regionID, carry.fromHighlight,
      carry.toHighlight⟩ entries rfl rfl rfl
  refine ⟨G, ?_, ?_, h4, ?_⟩
  · rw [h1, h2]
  · rw [h3]
    split
    · rename_i hcond
      have hne : line ≠ [] := by
        intro hx
        rw [hx] at hcond
        exact hcond.2 rfl
      exact List.length_pos.2
        (splitPieces_ne_nil false w (utf8Explode line) (utf8Explode_ne_nil line hne))
    · simp
  · rw [h5 buffer, hline]
    have hfl : (if wrapFlag = true ∧ ¬line.isEmpty = true then
        splitPieces false w (utf8Explode line) else [utf8Explode line]).flatten =
        utf8Explode line := by
      split
      · exact splitPieces_flatten false w (utf8Explode line) hw
      · simp
    rw [hfl, bsum_utf8Explode]
    simp

/-- If dropping `i` elements exposes `x :: rest`, then position `i` holds
`x` and dropping `i + 1` yields `rest`. -/
theorem drop_cons_facts {α : Type} (l : List α) : ∀ (i : Nat) (x : α)
    (rest : List α) (d : α), l.drop i = x :: rest →
    l.getD i d = x ∧ l.drop (i + 1) = rest := by
  induction l with
  | nil =>
    intro i x rest d h
    simp at h
  | cons a tl ih =>
    intro i x rest d h
    match i with
    | 0 =>
      simp at h ⊢
      exact ⟨h.1, h.2⟩
    | i + 1 =>
      simp only [List.drop_succ_cons] at h
      simpa using ih i x rest d h

/-- The line loop of the plain configuration: every line from position `i`
on contributes a block of entries for its own line number; the blocks tile
their lines and are nonempty. -/
theorem indexLines_plain (wrapFlag : Bool) (w : Nat) (hl : List (List Nat))
    (buffer : List (List Nat))
    (hw : ∀ line ∈ buffer, ∀ pr ∈ utf8Explode line, runeWidth pr.1 ≤ w) :
    ∀ (rest : List (List Nat)) (i : Nat) (entries : List textViewIndex)
      (carry : IndexCarry), rest = buffer.drop i →
    ∃ H, (indexLines false false wrapFlag false w hl buffer i rest
        entries carry).1 = entries ++ H ∧
      (∀ e ∈ H, i ≤ e.Line) ∧
      (∀ k, i ≤ k → k < buffer.length →
        (H.filter (fun e => e.Line = k)).flatMap (entrySlice buffer) =
          buffer.getD k [] ∧
        (H.filter (fun e => e.Line = k)) ≠ []) := by
  intro rest
  induction rest with
  | nil =>
    intro i entries carry hrest
    have hlen : buffer.length ≤ i := by
      rw [← List.drop_eq_nil_iff, ← hrest]
    exact ⟨[], by simp [indexLines], by simp, fun k hk1 hk2 => absurd hk2 (by omega)⟩
  | cons line rest' ih =>
    intro i entries carry hrest
    obtain ⟨hgetD, hdrop⟩ := drop_cons_facts buffer i line rest' [] hrest.symm
    have hmem : line ∈ buffer := by
      have : line ∈ buffer.drop i := by rw [← hrest]; simp
      exact List.mem_of_mem_drop this
    obtain ⟨G, hG1, hG2, hG3, hG4⟩ := indexLine_plain wrapFlag w hl buffer i line
      entries carry hgetD (hw line hmem)
    have hstep : indexLines false false wrapFlag false w hl buffer i
        (line :: rest') entries carry =
      indexLines false false wrapFlag false w hl buffer (i + 1) rest'
        (indexLine false false wrapFlag false w hl buffer i line entries carry).1
        (indexLine false false wrapFlag false w hl buffer i line entries carry).2 := rfl
    obtain ⟨H', hH1, hH2, hH3⟩ := ih (i + 1) (entries ++ G) carry hdrop.symm
    refine ⟨G ++ H', ?_, ?_, ?_⟩
    · rw [hstep, hG1, hH1, List.append_assoc]
    · intro e he
      rcases List.mem_append.1 he with h | h
      · rw [hG3 e h]
      · have := hH2 e h
        omega
    · intro k hk1 hk2
      rw [List.filter_append]
      by_cases hki : k = i
      · subst hki
        have hGfilter : G.filter (fun e => e.Line = k) = G := by
          rw [List.filter_eq_self]
          intro e he
          simp [hG3 e he]
        have hH'filter : H'.filter (fun e => e.Line = k) = [] := by
          rw [List.filter_eq_nil_iff]
          intro e he
          have := hH2 e he
          simp
          omega
        rw [hGfilter, hH'filter, List.append_nil]
        refine ⟨by rw [hG4, hgetD], ?_⟩
        intro hx
        rw [hx] at hG2
        simp at hG2
      · have hGfilter : G.filter (fun e => e.Line = k) = [] := by
          rw [List.filter_eq_nil_iff]
          intro e he
          simp [hG3 e he]
          omega
        rw [hGfilter, List.nil_append]
        exact hH3 k (by omega) hk2

/-- Mapping a function that agrees with `getD` over the index range
reproduces the list. -/
theorem map_range_eq (l : List (List Nat)) : ∀ (n : Nat) (f : Nat → List Nat),
    l.length = n → (∀ k, k < n → f k = l.getD k []) →
    (List.range n).map f = l := by
  induction l with
  | nil =>
    intro n f hn _
    subst hn
    rfl
  | cons a tl ih =>
    intro n f hn h
    subst hn
    rw [show (a :: tl).length = tl.length + 1 by rfl, List.range_succ_eq_map,
      List.map_cons, List.map_map]
    rw [h 0 (by simp)]
    rw [ih tl.length (f ∘ Nat.succ) rfl fun k hk => h (k + 1) (by simp; omega)]
    rfl

/-- The newline splitter never produces an empty list of segments. -/
theorem splitNLAux_ne_nil (s : List Nat) : ∀ acc, splitNLAux acc s ≠ [] := by
  induction s with
  | nil => intro acc; simp [splitNLAux]
  | cons b rest ih =>
    intro acc
    rw [splitNLAux.eq_def]
    split
    · simp
    · simp
    · simp
    · rename_i heq
      injection heq with hb ht
      subst hb
      subst ht
      exact ih (b :: acc)

/-- `joinLines` on a cons with nonempty tail. -/
theorem joinLines_cons (a : List Nat) (l : List (List Nat)) (h : l ≠ []) :
    joinLines (a :: l) = a ++ 10 :: joinLines l := by
  match l with
  | x :: xs => rfl

/-- The ordinary-byte step of `normalizeNewlines`. -/
theorem normalizeNewlines_other (b : Nat) (rest : List Nat)
    (hb : ¬ (b = 13 ∧ rest.head? = some 10)) (hb10 : b ≠ 10) :
    normalizeNewlines (b :: rest) = b :: normalizeNewlines rest := by
  rw [normalizeNewlines.eq_def]
  split
  · rename_i heq
    simp at heq
  · rename_i heq
    injection heq with h1 h2
    subst h1
    exact absurd ⟨rfl, by rw [h2]; rfl⟩ hb
  · rename_i heq
    injection heq with h1 h2
    subst h1
    subst h2
    rfl

/-- The ordinary-byte step of `splitNLAux`. -/
theorem splitNLAux_other (acc : List Nat) (b : Nat) (rest : List Nat)
    (hb : ¬ (b = 13 ∧ rest.head? = some 10)) (hb10 : b ≠ 10) :
    splitNLAux acc (b :: rest) = splitNLAux (b :: acc) rest := by
  rw [splitNLAux.eq_def]
  split
  · rename_i heq
    simp at heq
  · rename_i heq
    injection heq with h1 h2
    subst h1
    exact absurd ⟨rfl, by rw [h2]; rfl⟩ hb
  · rename_i heq
    injection heq with h1 h2
    exact absurd h1 hb10
  · rename_i heq
    injection heq with h1 h2
    subst h1
    subst h2
    rfl

/-- Joining the split segments performs exactly the line-break
normalization. -/
theorem joinLines_splitNLAux (s : List Nat) : ∀ acc,
    joinLines (splitNLAux acc s) = acc.reverse ++ normalizeNewlines s := by
  generalize hn : s.length = n
  induction n using Nat.strong_induction_on generalizing s with
  | _ n ih =>
    intro acc
    match s with
    | [] =>
      show joinLines [acc.reverse] = acc.reverse ++ normalizeNewlines []
      simp [joinLines, normalizeNewlines]
    | 13 :: 10 :: rest =>
      show joinLines (acc.reverse :: splitNLAux [] rest) = _
      rw [joinLines_cons _ _ (splitNLAux_ne_nil rest [])]
      rw [ih rest.length (by simp at hn; omega) rest rfl []]
      show acc.reverse ++ 10 :: normalizeNewlines rest =
        acc.reverse ++ normalizeNewlines (13 :: 10 :: rest)
      rfl
    | 10 :: rest =>
      show joinLines (acc.reverse :: splitNLAux [] rest) = _
      rw [joinLines_cons _ _ (splitNLAux_ne_nil rest [])]
      rw [ih rest.length (by simp at hn; omega) rest rfl []]
      show acc.reverse ++ 10 :: normalizeNewlines rest =
        acc.reverse ++ normalizeNewlines (10 :: rest)
      rfl
    | b :: rest =>
      by_cases hb13 : b = 13 ∧ rest.head? = some 10
      · obtain ⟨hb, hr⟩ := hb13
        subst hb
        match rest with
        | 10 :: rest' =>
          show joinLines (acc.reverse :: splitNLAux [] rest') = _
          rw [joinLines_cons _ _ (splitNLAux_ne_nil rest' [])]
          rw [ih rest'.length (by simp at hn; omega) rest' rfl []]
          rfl
      · by_cases hb10 : b = 10
        · subst hb10
          show joinLines (acc.reverse :: splitNLAux [] rest) = _
          rw [joinLines_cons _ _ (splitNLAux_ne_nil rest [])]
          rw [ih rest.length (by simp at hn; omega) rest rfl []]
          rfl
        · rw [splitNLAux_other acc b rest hb13 hb10,
            normalizeNewlines_other b rest hb13 hb10]
          rw [ih rest.length (by simp at hn; omega) rest rfl (b :: acc)]
          simp

/-- Merging into an empty buffer keeps the segments as they are. -/
theorem appendSegs_nil (segs : List (List Nat)) (h : segs ≠ []) :
    appendSegs [] segs = segs := by
  match segs with
  | s0 :: rest => rfl

/-- A `Write` into a fresh view (any wrap setting) commits the tab-expanded
payload, split at line breaks, as the whole buffer, provided the payload
ends in a complete rune. -/
theorem write_fresh (p : List Nat) (wrapFlag : Bool)
    (hend : ¬ (decodeLastRune p).1 = runeError)
    (hpne : splitNL (expandTabs p) ≠ []) :
    (write p { newTextView with wrap := wrapFlag }).1 =
    { newTextView with wrap := wrapFlag, buffer := splitNL (expandTabs p), index := none } := by
  rw [write_commit_plain _ _ rfl rfl hend]
  rw [show ({ newTextView with wrap := wrapFlag } : TextView).recentBytes ++ p = p from rfl]
  rw [show ({ newTextView with wrap := wrapFlag } : TextView).buffer = ([] : List (List Nat)) from rfl]
  rw [appendSegs_nil _ hpne]
  rfl

/-- With dynamic colors, regions and word-wrap all off, a reindex of a
nonempty buffer (at a positive width whose lines' runes all fit) produces
an index whose entry ranges reassemble to exactly the buffer contents. -/
theorem reassemble_reindex_plain (t : TextView) (width : Int)
    (hdc : t.dynamicColors = false) (hrg : t.regions = false)
    (hww : t.wordWrap = false) (hidx : t.index = none)
    (hwpos : 1 ≤ width) (hbne : t.buffer ≠ [])
    (hw : ∀ line ∈ t.buffer, ∀ pr ∈ utf8Explode line,
      runeWidth pr.1 ≤ width.toNat) :
    reassemble (reindexBuffer width t) = joinLines t.buffer := by
  obtain ⟨H, hH1, hH2, hH3⟩ := indexLines_plain t.wrap width.toNat t.highlights
    t.buffer hw t.buffer 0 [] ⟨t.textColor, [], -1, -1⟩ rfl
  rw [List.nil_append] at hH1
  have hHne : H ≠ [] := by
    have hlen : 0 < t.buffer.length := List.length_pos.2 hbne
    have hne := (hH3 0 (Nat.le_refl 0) hlen).2
    intro hx
    rw [hx] at hne
    exact hne rfl
  have hpure : pureIndex t width = some H := by
    unfold pureIndex
    rw [if_neg (by omega)]
    dsimp only
    rw [hdc, hrg, hww, hH1]
    rw [if_neg (by simpa [List.isEmpty_iff] using hHne)]
  have hidx2 : (reindexBuffer width t).index = some H := by
    rw [reindexBuffer_of_none width t hidx]
    exact hpure
  have hbuf : (reindexBuffer width t).buffer = t.buffer :=
    (reindexBuffer_fields width t).1
  unfold reassemble
  rw [hidx2, hbuf]
  rw [map_range_eq t.buffer t.buffer.length _ rfl ?hgroups]
  case hgroups =>
    intro k hk
    show ((Option.getD (some H) []).filter (fun e => e.Line = k)).flatMap
      (entrySlice t.buffer) = t.buffer.getD k []
    exact (hH3 k (Nat.zero_le k) hk).1

/-- C2 (amended): with dynamic colors and regions disabled and word-wrap
off, for any wrap setting and any positive width whose lines' runes all
fit it (so the Go split loop terminates), concatenating the byte ranges
`[Pos, NextPos)` of all index entries in display order, with a line break
at each logical-line boundary, reproduces the written input up to
line-break normalization and tab expansion.  The original claim fails when
word-wrap is on: trailing-space trimming drops bytes (see the
counterexample).  The UTF-8 validity hypothesis marks the byte-model's
scope: Go's `runewidth.Truncate` re-encodes invalid input and the byte
offsets are genuinely lost there too. -/
theorem round_trip_c2_amended (p : List Nat) (wrapFlag : Bool) (width : Int)
    (hvalid : validUtf8 p = true)
    (hend : ¬ (decodeLastRune p).1 = runeError)
    (hwpos : 1 ≤ width)
    (hw : ∀ line ∈ splitNL (expandTabs p), ∀ pr ∈ utf8Explode line,
      runeWidth pr.1 ≤ width.toNat) :
    reassemble (reindexBuffer width
      (write p { newTextView with wrap := wrapFlag }).1) =
    normalizeNewlines (expandTabs p) := by
  have hsegs : splitNL (expandTabs p) ≠ [] := splitNLAux_ne_nil (expandTabs p) []
  rw [write_fresh p wrapFlag hend hsegs]
  have hbne : ({ newTextView with wrap := wrapFlag, buffer := splitNL (expandTabs p), index := none } : TextView).buffer ≠ [] := hsegs
  have hw2 : ∀ line ∈ ({ newTextView with wrap := wrapFlag, buffer := splitNL (expandTabs p), index := none } : TextView).buffer, ∀ pr ∈ utf8Explode line, runeWidth pr.1 ≤ width.toNat := hw
  rw [reassemble_reindex_plain _ width rfl rfl rfl rfl hwpos hbne hw2]
  show joinLines (splitNLAux [] (expandTabs p)) = normalizeNewlines (expandTabs p)
  rw [joinLines_splitNLAux (expandTabs p) []]
  rfl

/-- C2 counterexample: with word-wrap on, writing "a b" and indexing at
width 1 yields entries whose ranges reassemble to "ab" — the trailing
space of the wrapped piece is trimmed away, so the round trip fails. -/
theorem round_trip_c2_counterexample :
    reassemble (reindexBuffer 1
      (write [97, 32, 98] { newTextView with wordWrap := true }).1) ≠
    normalizeNewlines (expandTabs [97, 32, 98]) := by decide

theorem round_trip_c2_amended_witness :
    reassemble (reindexBuffer 10
      (write [104, 105, 10, 98, 121, 101] { newTextView with wrap := true }).1) =
    normalizeNewlines (expandTabs [104, 105, 10, 98, 121, 101]) :=
  round_trip_c2_amended [104, 105, 10, 98, 121, 101] true 10
    (by decide) (by decide) (by decide) (by decide)

/-! ## Width monotonicity of the split (C4) -/

/-- Display width distributes over concatenation. -/
theorem wsum_append (a b : List (Nat × Nat)) : wsum (a ++ b) = wsum a + wsum b := by
  induction a with
  | nil => simp [wsum]
  | cons p ps ih =>
    show runeWidth p.1 + wsum (ps ++ b) = runeWidth p.1 + wsum ps + wsum b
    rw [ih]
    omega

/-- The greedy prefix fits the width. -/
theorem greedyCut_fits (s : List (Nat × Nat)) : ∀ w, wsum (s.take (greedyCut s w)) ≤ w := by
  induction s with
  | nil => intro w; simp [greedyCut, wsum]
  | cons p ps ih =>
    intro w
    unfold greedyCut
    split
    · show wsum (p :: ps.take (greedyCut ps (w - runeWidth p.1))) ≤ w
      show runeWidth p.1 + wsum (ps.take (greedyCut ps (w - runeWidth p.1))) ≤ w
      have := ih (w - runeWidth p.1)
      omega
    · show wsum [] ≤ w
      show 0 ≤ w
      omega

/-- The truncation prefix fits the width. -/
theorem truncCut_fits (s : List (Nat × Nat)) (w : Nat) :
    wsum (s.take (truncCut s w)) ≤ w := by
  unfold truncCut
  split
  · rw [List.take_length]
    omega
  · exact greedyCut_fits s w

/-- The greedy cut is maximal among prefixes that fit the width. -/
theorem greedyCut_max (s : List (Nat × Nat)) : ∀ w k, k ≤ s.length →
    wsum (s.take k) ≤ w → k ≤ greedyCut s w := by
  induction s with
  | nil =>
    intro w k hk _
    simp at hk
    omega
  | cons p ps ih =>
    intro w k hk hfit
    match k with
    | 0 => omega
    | k' + 1 =>
      have hfit' : runeWidth p.1 + wsum (ps.take k') ≤ w := hfit
      unfold greedyCut
      rw [if_pos (by omega)]
      have := ih (w - runeWidth p.1) k' (by simp at hk; omega) (by omega)
      omega

/-- The truncation cut is maximal among prefixes that fit the width. -/
theorem truncCut_max (s : List (Nat × Nat)) (w k : Nat) (hk : k ≤ s.length)
    (hfit : wsum (s.take k) ≤ w) : k ≤ truncCut s w := by
  unfold truncCut
  split
  · exact hk
  · exact greedyCut_max s w k hk hfit

/-- The truncation cut stays within the string. -/
theorem truncCut_le (s : List (Nat × Nat)) (w : Nat) : truncCut s w ≤ s.length := by
  unfold truncCut
  split
  · omega
  · exact greedyCut_le s w

/-- Every rune inside the leading space run is a space. -/
theorem leadSpaces_spaces (s : List (Nat × Nat)) : ∀ r, r < leadSpaces s →
    isSpaceByte (s.getD r (0, 0)).1 = true := by
  induction s with
  | nil => intro r hr; simp [leadSpaces] at hr
  | cons p ps ih =>
    intro r hr
    unfold leadSpaces at hr
    split at hr
    · match r with
      | 0 => assumption
      | r' + 1 =>
        show isSpaceByte (ps.getD r' (0, 0)).1 = true
        exact ih r' (by omega)
    · omega

/-- A leading all-space prefix is no longer than the leading space run. -/
theorem leadSpaces_max (s : List (Nat × Nat)) : ∀ k, k ≤ s.length →
    (∀ r, r < k → isSpaceByte (s.getD r (0, 0)).1 = true) →
    k ≤ leadSpaces s := by
  induction s with
  | nil =>
    intro k hk _
    simp at hk
    omega
  | cons p ps ih =>
    intro k hk hsp
    match k with
    | 0 => omega
    | k' + 1 =>
      unfold leadSpaces
      rw [if_pos (show isSpaceByte p.1 = true from hsp 0 (by omega))]
      have := ih k' (by simp at hk; omega) (fun r hr => hsp (r + 1) (by omega))
      omega

/-- The boundary scanner's result only grows from its accumulator. -/
theorem lastBoundaryEndAux_acc (s : List (Nat × Nat)) : ∀ (pos a : Nat), a ≤ pos →
    ∃ e, lastBoundaryEndAux s pos (some a) = some e ∧ a ≤ e := by
  induction s with
  | nil =>
    intro pos a ha
    exact ⟨a, rfl, Nat.le_refl a⟩
  | cons p ps ih =>
    intro pos a ha
    unfold lastBoundaryEndAux
    split
    · obtain ⟨e, he1, he2⟩ := ih (pos + 1) (pos + 1) (Nat.le_refl _)
      exact ⟨e, he1, by omega⟩
    · obtain ⟨e, he1, he2⟩ := ih (pos + 1) a (by omega)
      exact ⟨e, he1, he2⟩

/-- A boundary rune at offset `j` forces a last-match end of at least
`j + 1`. -/
theorem lastBoundaryEndAux_exists (s : List (Nat × Nat)) :
    ∀ (pos : Nat) (acc : Option Nat) (j : Nat), j < s.length →
    isBoundaryRune (s.getD j (0, 0)).1 = true →
    ∃ e, lastBoundaryEndAux s pos acc = some e ∧ pos + j + 1 ≤ e := by
  induction s with
  | nil =>
    intro pos acc j hj
    simp at hj
  | cons p ps ih =>
    intro pos acc j hj hb
    match j with
    | 0 =>
      unfold lastBoundaryEndAux
      rw [if_pos (show isBoundaryRune p.1 = true from hb)]
      obtain ⟨e, he1, he2⟩ := lastBoundaryEndAux_acc ps (pos + 1) (pos + 1) (Nat.le_refl _)
      exact ⟨e, he1, by omega⟩
    | j' + 1 =>
      unfold lastBoundaryEndAux
      obtain ⟨e, he1, he2⟩ := ih (pos + 1)
        (if isBoundaryRune p.1 then some (pos + 1) else acc) j' (by simp at hj; omega) hb
      exact ⟨e, he1, by omega⟩

/-- A boundary rune anywhere in the string forces a last-match end past
it. -/
theorem lastBoundaryEnd_exists (s : List (Nat × Nat)) (j : Nat) (hj : j < s.length)
    (hb : isBoundaryRune (s.getD j (0, 0)).1 = true) :
    ∃ e, lastBoundaryEnd s = some e ∧ j + 1 ≤ e := by
  obtain ⟨e, he1, he2⟩ := lastBoundaryEndAux_exists s 0 none j hj hb
  exact ⟨e, he1, by omega⟩

/-- The last-match end points just past a boundary rune. -/
theorem lastBoundaryEndAux_sound (s : List (Nat × Nat)) :
    ∀ (pos : Nat) (acc : Option Nat) (e : Nat),
    lastBoundaryEndAux s pos acc = some e →
    acc = some e ∨ ∃ j, j < s.length ∧ e = pos + j + 1 ∧
      isBoundaryRune (s.getD j (0, 0)).1 = true := by
  induction s with
  | nil =>
    intro pos acc e h
    exact Or.inl h
  | cons p ps ih =>
    intro pos acc e h
    unfold lastBoundaryEndAux at h
    rcases ih (pos + 1) _ e h with hacc | ⟨j', hj1, hj2, hj3⟩
    · split at hacc
      · right
        refine ⟨0, by simp, ?_, ?_⟩
        · injection hacc with h2; omega
        · assumption
      · exact Or.inl hacc
    · right
      exact ⟨j' + 1, by simp at hj1 ⊢; omega, by omega, hj3⟩

/-- The last boundary-match end is one past a boundary rune of the
string. -/
theorem lastBoundaryEnd_boundary (s : List (Nat × Nat)) (e : Nat)
    (h : lastBoundaryEnd s = some e) :
    1 ≤ e ∧ e ≤ s.length ∧ e - 1 < s.length ∧
    isBoundaryRune (s.getD (e - 1) (0, 0)).1 = true := by
  rcases lastBoundaryEndAux_sound s 0 none e h with hacc | ⟨j, hj1, hj2, hj3⟩
  · exact absurd hacc (by simp)
  · have : e - 1 = j := by omega
    rw [this]
    exact ⟨by omega, by omega, hj1, hj3⟩

/-- Reading inside a `take` window is reading the original. -/
theorem getD_take (l : List (Nat × Nat)) (t j : Nat) (h : j < t) :
    (l.take t).getD j (0, 0) = l.getD j (0, 0) := by
  induction l generalizing t j with
  | nil => simp
  | cons p ps ih =>
    match t, j with
    | t' + 1, 0 => rfl
    | t' + 1, j' + 1 =>
      show (ps.take t').getD j' (0, 0) = ps.getD j' (0, 0)
      exact ih t' j' (by omega)

/-- Reading inside a `drop` suffix is reading the original, shifted. -/
theorem getD_drop (l : List (Nat × Nat)) : ∀ (n j : Nat),
    (l.drop n).getD j (0, 0) = l.getD (n + j) (0, 0) := by
  induction l with
  | nil => simp
  | cons p ps ih =>
    intro n j
    match n with
    | 0 => rw [Nat.zero_add]; rfl
    | n' + 1 =>
      show (ps.drop n').getD j (0, 0) = (p :: ps).getD (n' + 1 + j) (0, 0)
      rw [show n' + 1 + j = (n' + j) + 1 by omega]
      show (ps.drop n').getD j (0, 0) = ps.getD (n' + j) (0, 0)
      exact ih n' j

/-- Two-pointer bound for the raw truncation: the narrow cut never gets
past the wide cut taken from any start offset `d` behind it. -/
theorem truncCut_shift (s : List (Nat × Nat)) (w1 w2 d : Nat) (h12 : w1 ≤ w2)
    (hw : ∀ pr ∈ s, runeWidth pr.1 ≤ w1) :
    truncCut s w1 ≤ d + truncCut (s.drop d) w2 := by
  by_cases hd : truncCut s w1 ≤ d
  · omega
  · have ht1 : truncCut s w1 ≤ s.length := truncCut_le s w1
    have hfit : wsum (s.take (truncCut s w1)) ≤ w1 := truncCut_fits s w1
    have hsplit : s.take (truncCut s w1) =
        s.take d ++ (s.drop d).take (truncCut s w1 - d) := by
      rw [← List.take_add]
      congr 1
      omega
    rw [hsplit, wsum_append] at hfit
    have := truncCut_max (s.drop d) w2 (truncCut s w1 - d)
      (by rw [List.length_drop]; omega) (by omega)
    omega

/-- Two-pointer bound for a full piece: the narrow split's first cut of a
line never gets past the wide split's first cut taken from any start
offset `d` behind it.  This is the key step behind width monotonicity of
the piece count. -/
theorem pieceLen_mono (ww : Bool) (w1 w2 : Nat) (h12 : w1 ≤ w2)
    (s : List (Nat × Nat)) (hw : ∀ pr ∈ s, runeWidth pr.1 ≤ w1) (d : Nat) :
    pieceLen ww w1 s ≤ d + pieceLen ww w2 (s.drop d) := by
  by_cases hc1 : ww = true ∧ truncCut s w1 < s.length
  · obtain ⟨hww, ht1lt⟩ := hc1
    have hn1 : pieceLen ww w1 s =
        (match lastBoundaryEnd (s.take (truncCut s w1 + leadSpaces (s.drop (truncCut s w1)))) with
         | some e => e
         | none => truncCut s w1 + leadSpaces (s.drop (truncCut s w1))) := by
      unfold pieceLen
      dsimp only
      rw [if_pos ⟨hww, ht1lt⟩]
    have hT1le : truncCut s w1 + leadSpaces (s.drop (truncCut s w1)) ≤ s.length := by
      have h1 := leadSpaces_le (s.drop (truncCut s w1))
      rw [List.length_drop] at h1
      have h2 := truncCut_le s w1
      omega
    by_cases hc2 : truncCut (s.drop d) w2 < (s.drop d).length
    · have hn2 : pieceLen ww w2 (s.drop d) =
          (match lastBoundaryEnd ((s.drop d).take (truncCut (s.drop d) w2 +
              leadSpaces ((s.drop d).drop (truncCut (s.drop d) w2)))) with
           | some e => e
           | none => truncCut (s.drop d) w2 +
              leadSpaces ((s.drop d).drop (truncCut (s.drop d) w2))) := by
        unfold pieceLen
        dsimp only
        rw [if_pos ⟨hww, hc2⟩]
      have hC1 : truncCut s w1 ≤ d + truncCut (s.drop d) w2 :=
        truncCut_shift s w1 w2 d h12 hw
      have hC2 : truncCut s w1 + leadSpaces (s.drop (truncCut s w1)) ≤
          d + (truncCut (s.drop d) w2 + leadSpaces ((s.drop d).drop (truncCut (s.drop d) w2))) := by
        by_cases hsp : truncCut s w1 + leadSpaces (s.drop (truncCut s w1)) ≤
            d + truncCut (s.drop d) w2
        · omega
        · have hk : (truncCut s w1 + leadSpaces (s.drop (truncCut s w1))) -
              (d + truncCut (s.drop d) w2) ≤
              leadSpaces ((s.drop d).drop (truncCut (s.drop d) w2)) := by
            apply leadSpaces_max
            · rw [List.length_drop, List.length_drop]
              omega
            · intro r hr
              rw [getD_drop, getD_drop]
              have hfrom := leadSpaces_spaces (s.drop (truncCut s w1))
                (d + (truncCut (s.drop d) w2 + r) - truncCut s w1) (by omega)
              rw [getD_drop] at hfrom
              rw [show truncCut s w1 +
                  (d + (truncCut (s.drop d) w2 + r) - truncCut s w1) =
                  d + (truncCut (s.drop d) w2 + r) by omega] at hfrom
              exact hfrom
          omega
      rcases hbe1 : lastBoundaryEnd (s.take (truncCut s w1 +
          leadSpaces (s.drop (truncCut s w1)))) with _ | e1
      · have hv1 : pieceLen ww w1 s =
            truncCut s w1 + leadSpaces (s.drop (truncCut s w1)) := by
          rw [hn1, hbe1]
        rcases hbe2 : lastBoundaryEnd ((s.drop d).take (truncCut (s.drop d) w2 +
            leadSpaces ((s.drop d).drop (truncCut (s.drop d) w2)))) with _ | e2
        · have hv2 : pieceLen ww w2 (s.drop d) = truncCut (s.drop d) w2 +
              leadSpaces ((s.drop d).drop (truncCut (s.drop d) w2)) := by
            rw [hn2, hbe2]
          rw [hv1, hv2]
          exact hC2
        · have hv2 : pieceLen ww w2 (s.drop d) = e2 := by
            rw [hn2, hbe2]
          rw [hv1, hv2]
          by_cases hlt : d + e2 < truncCut s w1 + leadSpaces (s.drop (truncCut s w1))
          · obtain ⟨h1e2, h2e2, h3e2, hb2⟩ := lastBoundaryEnd_boundary _ e2 hbe2
            rw [List.length_take] at h2e2
            have hb2' : isBoundaryRune (s.getD (d + (e2 - 1)) (0, 0)).1 = true := by
              rw [getD_take _ _ _ (by omega), getD_drop] at hb2
              exact hb2
            have hjlen : d + (e2 - 1) < (s.take (truncCut s w1 +
                leadSpaces (s.drop (truncCut s w1)))).length := by
              rw [List.length_take]
              omega
            have hbj : isBoundaryRune ((s.take (truncCut s w1 +
                leadSpaces (s.drop (truncCut s w1)))).getD (d + (e2 - 1)) (0, 0)).1
                = true := by
              rw [getD_take _ _ _ (by omega)]
              exact hb2'
            obtain ⟨e', he'a, he'b⟩ := lastBoundaryEnd_exists _ _ hjlen hbj
            rw [hbe1] at he'a
            exact absurd he'a (by simp)
          · omega
      · have hv1 : pieceLen ww w1 s = e1 := by
          rw [hn1, hbe1]
        obtain ⟨h1e1, h2e1, h3e1, hb1⟩ := lastBoundaryEnd_boundary _ e1 hbe1
        rw [List.length_take] at h2e1
        rw [hv1]
        by_cases he1d : e1 ≤ d
        · have : 0 ≤ pieceLen ww w2 (s.drop d) := Nat.zero_le _
          omega
        · have hb1' : isBoundaryRune (s.getD (e1 - 1) (0, 0)).1 = true := by
            rw [getD_take _ _ _ (by omega)] at hb1
            exact hb1
          have hjlen : (e1 - 1) - d < ((s.drop d).take (truncCut (s.drop d) w2 +
              leadSpaces ((s.drop d).drop (truncCut (s.drop d) w2)))).length := by
            rw [List.length_take, List.length_drop]
            omega
          have hbj : isBoundaryRune (((s.drop d).take (truncCut (s.drop d) w2 +
              leadSpaces ((s.drop d).drop (truncCut (s.drop d) w2)))).getD
                ((e1 - 1) - d) (0, 0)).1 = true := by
            rw [getD_take _ _ _ (by omega), getD_drop,
              show d + ((e1 - 1) - d) = e1 - 1 by omega]
            exact hb1'
          obtain ⟨e2, he2a, he2b⟩ := lastBoundaryEnd_exists _ _ hjlen hbj
          have hv2 : pieceLen ww w2 (s.drop d) = e2 := by
            rw [hn2, he2a]
          rw [hv2]
          omega
    · have ht2 : truncCut (s.drop d) w2 = (s.drop d).length := by
        have := truncCut_le (s.drop d) w2
        omega
      have hn2 : pieceLen ww w2 (s.drop d) = (s.drop d).length := by
        unfold pieceLen
        dsimp only
        rw [if_neg (by omega), ht2]
      rw [hn2, List.length_drop]
      have := pieceLen_le ww w1 s
      omega
  · have hn1 : pieceLen ww w1 s = truncCut s w1 := by
      unfold pieceLen
      dsimp only
      rw [if_neg hc1]
    rw [hn1]
    by_cases hww : ww = true
    · have ht1 : truncCut s w1 = s.length := by
        have h1 := truncCut_le s w1
        have h2 : ¬ truncCut s w1 < s.length := fun h => hc1 ⟨hww, h⟩
        omega
      have hws : wsum s ≤ w1 := by
        have := truncCut_fits s w1
        rw [ht1, List.take_length] at this
        exact this
      have hws2 : wsum (s.drop d) ≤ w2 := by
        have hsp : wsum (s.take d ++ s.drop d) = wsum s := by
          rw [List.take_append_drop]
        rw [wsum_append] at hsp
        omega
      have ht2 : truncCut (s.drop d) w2 = (s.drop d).length := by
        unfold truncCut
        rw [if_pos hws2]
      have hn2 : pieceLen ww w2 (s.drop d) = (s.drop d).length := by
        unfold pieceLen
        dsimp only
        rw [if_neg (by rw [ht2]; omega), ht2]
      rw [hn2, List.length_drop, ht1]
      omega
    · have hn2 : pieceLen ww w2 (s.drop d) = truncCut (s.drop d) w2 := by
        unfold pieceLen
        dsimp only
        rw [if_neg (fun h => hww h.1)]
      rw [hn2]
      exact truncCut_shift s w1 w2 d h12 hw

/-- When every rune fits the width, the split needs no more fuel than the
line length plus one, and any larger budget gives the same pieces. -/
theorem splitPiecesAux_fuel (ww : Bool) (w : Nat) : ∀ (n : Nat) (s : List (Nat × Nat))
    (fuel₁ fuel₂ : Nat), s.length ≤ n → s.length < fuel₁ → s.length < fuel₂ →
    (∀ pr ∈ s, runeWidth pr.1 ≤ w) →
    splitPiecesAux fuel₁ ww w s = splitPiecesAux fuel₂ ww w s := by
  intro n
  induction n with
  | zero =>
    intro s fuel₁ fuel₂ hn h1 h2 hw
    have hs : s = [] := List.eq_nil_of_length_eq_zero (by omega)
    subst hs
    match fuel₁, fuel₂ with
    | a + 1, b + 1 => rfl
  | succ n ih =>
    intro s fuel₁ fuel₂ hn h1 h2 hw
    match fuel₁, fuel₂ with
    | a + 1, b + 1 =>
      by_cases hne : s.isEmpty
      · unfold splitPiecesAux
        rw [if_pos hne, if_pos hne]
      · unfold splitPiecesAux
        rw [if_neg hne, if_neg hne]
        have hne' : s ≠ [] := fun hx => hne (by simp [hx])
        have hp := pieceLen_pos ww w s hne' hw
        have hl := pieceLen_le ww w s
        dsimp only
        rw [ih (s.drop (pieceLen ww w s)) a b
          (by rw [List.length_drop]; omega)
          (by rw [List.length_drop]; omega)
          (by rw [List.length_drop]; omega)
          (fun pr hpr => hw pr (List.mem_of_mem_drop hpr))]

/-- One unfolding of the split under the width side condition. -/
theorem splitPieces_cons (ww : Bool) (w : Nat) (s : List (Nat × Nat))
    (hne : s ≠ []) (hw : ∀ pr ∈ s, runeWidth pr.1 ≤ w) :
    splitPieces ww w s = s.take (pieceLen ww w s) ::
      splitPieces ww w (s.drop (pieceLen ww w s)) := by
  have hp := pieceLen_pos ww w s hne hw
  have hl := pieceLen_le ww w s
  show splitPiecesAux (s.length + 1) ww w s = _
  unfold splitPiecesAux
  rw [if_neg (by simpa using hne)]
  dsimp only
  congr 1
  exact splitPiecesAux_fuel ww w s.length (s.drop (pieceLen ww w s)) s.length
    ((s.drop (pieceLen ww w s)).length + 1)
    (by rw [List.length_drop]; omega)
    (by rw [List.length_drop]; omega)
    (by omega)
    (fun pr hpr => hw pr (List.mem_of_mem_drop hpr))

/-- Width monotonicity of the piece count, in two-pointer form: the wide
split of any suffix produces no more pieces than the narrow split of the
whole line. -/
theorem splitPieces_count_mono (ww : Bool) (w1 w2 : Nat) (h12 : w1 ≤ w2) :
    ∀ (n : Nat) (s : List (Nat × Nat)) (d : Nat), s.length ≤ n →
    (∀ pr ∈ s, runeWidth pr.1 ≤ w1) →
    (splitPieces ww w2 (s.drop d)).length ≤ (splitPieces ww w1 s).length := by
  intro n
  induction n with
  | zero =>
    intro s d hn hw
    have hs : s = [] := List.eq_nil_of_length_eq_zero (by omega)
    subst hs
    rw [List.drop_nil]
    exact Nat.le_refl _
  | succ n ih =>
    intro s d hn hw
    by_cases hne : s = []
    · subst hne
      rw [List.drop_nil]
      exact Nat.le_refl _
    · have hw2 : ∀ pr ∈ s, runeWidth pr.1 ≤ w2 := fun pr hpr => by
        have := hw pr hpr
        omega
      by_cases hdne : s.drop d = []
      · rw [hdne]
        exact Nat.zero_le _
      · rw [splitPieces_cons ww w1 s hne hw,
          splitPieces_cons ww w2 (s.drop d) hdne
            (fun pr hpr => hw2 pr (List.mem_of_mem_drop hpr))]
        show ((s.drop d).take _ :: _).length ≤ (s.take _ :: _).length
        rw [List.length_cons, List.length_cons]
        have hkey := pieceLen_mono ww w1 w2 h12 s hw d
        have hp1 := pieceLen_pos ww w1 s hne hw
        have hl1 := pieceLen_le ww w1 s
        have hdd : (s.drop d).drop (pieceLen ww w2 (s.drop d)) =
            (s.drop (pieceLen ww w1 s)).drop
              ((d + pieceLen ww w2 (s.drop d)) - pieceLen ww w1 s) := by
          rw [List.drop_drop, List.drop_drop]
          congr 1
          omega
        rw [hdd]
        have := ih (s.drop (pieceLen ww w1 s))
          ((d + pieceLen ww w2 (s.drop d)) - pieceLen ww w1 s)
          (by rw [List.length_drop]; omega)
          (fun pr hpr => hw pr (List.mem_of_mem_drop hpr))
        omega

/-- Trimming trailing whitespace never moves an entry to another line. -/
theorem trimEntry_Line (buffer : List (List Nat)) (e : textViewIndex) :
    (trimEntry buffer e).Line = e.Line := by
  unfold trimEntry
  dsimp only
  split
  · rfl
  · rfl

/-- A plainly-configured line produces one entry per split piece, all on
its own line number. -/
theorem indexLine_count (wrapFlag wwFlag : Bool) (w : Nat)
    (hl buffer : List (List Nat)) (line : List Nat) (carry : IndexCarry) :
    (∀ e ∈ (indexLine false false wrapFlag wwFlag w hl buffer 0 line [] carry).1,
      e.Line = 0) ∧
    (indexLine false false wrapFlag wwFlag w hl buffer 0 line [] carry).1.length =
      (if wrapFlag = true ∧ ¬line.isEmpty then splitPieces wwFlag w (utf8Explode line)
       else [utf8Explode line]).length := by
  unfold indexLine
  dsimp only
  simp only [Bool.false_eq_true, if_false, Bool.or_self]
  obtain ⟨G, hG1, hG2, hG3, hG4, hG5⟩ := buildPieces_plain hl 0
    (if wrapFlag = true ∧ ¬line.isEmpty then splitPieces wwFlag w (utf8Explode line)
     else [utf8Explode line])
    ⟨0, [], [], [], carry.color, carry.regionID, carry.fromHighlight, carry.toHighlight⟩
    [] rfl rfl rfl
  rw [List.nil_append] at hG1
  rw [hG1]
  constructor
  · intro e he
    split at he
    · obtain ⟨e0, he0, hmap⟩ := List.mem_map.1 he
      rw [← hmap, trimEntry_Line]
      exact hG4 e0 he0
    · exact hG4 e he
  · split
    · rw [List.length_map]
      exact hG3
    · exact hG3

/-- Entry count of a freshly indexed single-line buffer: exactly one entry
per split piece, all on line 0. -/
theorem reindex_singleton_count (t : TextView) (line : List Nat) (width : Int)
    (hdc : t.dynamicColors = false) (hrg : t.regions = false)
    (hbuf : t.buffer = [line]) (hidx : t.index = none) (hwpos : 1 ≤ width) :
    (((reindexBuffer width t).index.getD []).filter (fun e => e.Line = 0)).length =
    (if t.wrap = true ∧ ¬line.isEmpty then
        splitPieces t.wordWrap width.toNat (utf8Explode line)
      else [utf8Explode line]).length := by
  have hstep : indexLines false false t.wrap t.wordWrap width.toNat t.highlights
      [line] 0 [line] [] ⟨t.textColor, [], -1, -1⟩ =
      indexLine false false t.wrap t.wordWrap width.toNat t.highlights
      [line] 0 line [] ⟨t.textColor, [], -1, -1⟩ := rfl
  obtain ⟨hLine0, hLen⟩ := indexLine_count t.wrap t.wordWrap width.toNat
    t.highlights [line] line ⟨t.textColor, [], -1, -1⟩
  have hpne : (if t.wrap = true ∧ ¬line.isEmpty then
      splitPieces t.wordWrap width.toNat (utf8Explode line)
      else [utf8Explode line]) ≠ [] := by
    split
    · rename_i hcase
      have hlne : line ≠ [] := by
        intro hx
        exact hcase.2 (by rw [hx]; rfl)
      exact splitPieces_ne_nil _ _ _ (utf8Explode_ne_nil line hlne)
    · simp
  have hEne : (indexLine false false t.wrap t.wordWrap width.toNat t.highlights
      [line] 0 line [] ⟨t.textColor, [], -1, -1⟩).1 ≠ [] :=
    List.ne_nil_of_length_pos (hLen ▸ List.length_pos.2 hpne)
  have hpure : pureIndex t width = some (indexLine false false t.wrap t.wordWrap
      width.toNat t.highlights [line] 0 line [] ⟨t.textColor, [], -1, -1⟩).1 := by
    unfold pureIndex
    rw [if_neg (by omega)]
    dsimp only
    rw [hdc, hrg, hbuf, hstep]
    rw [if_neg (by simpa [List.isEmpty_iff] using hEne)]
  have hIdx : (reindexBuffer width t).index = some (indexLine false false t.wrap
      t.wordWrap width.toNat t.highlights [line] 0 line []
      ⟨t.textColor, [], -1, -1⟩).1 := by
    rw [reindexBuffer_of_none width t hidx]
    exact hpure
  rw [hIdx]
  have hfilter : ((indexLine false false t.wrap t.wordWrap width.toNat t.highlights
      [line] 0 line [] ⟨t.textColor, [], -1, -1⟩).1.filter
        (fun e => e.Line = 0)) =
      (indexLine false false t.wrap t.wordWrap width.toNat t.highlights
      [line] 0 line [] ⟨t.textColor, [], -1, -1⟩).1 :=
    List.filter_eq_self.2 (fun e he => by simp [hLine0 e he])
  show ((indexLine false false t.wrap t.wordWrap width.toNat t.highlights
      [line] 0 line [] ⟨t.textColor, [], -1, -1⟩).1.filter
        (fun e => e.Line = 0)).length = _
  rw [hfilter]
  exact hLen

/-- C4: for a fixed logical line and fixed wrap/word-wrap settings, and
any widths `1 ≤ w1 < w2` such that the line's runes fit the narrow width
(the regime in which Go's split loop terminates), indexing at the larger
width produces at most as many display entries for that line as indexing
at the smaller width. -/
theorem width_monotonicity_c4 (line : List Nat) (wrapFlag wordWrapFlag : Bool)
    (w1 w2 : Int) (h1 : 1 ≤ w1) (h12 : w1 < w2)
    (hw : ∀ pr ∈ utf8Explode line, runeWidth pr.1 ≤ w1.toNat) :
    (((reindexBuffer w2 { newTextView with wrap := wrapFlag, wordWrap := wordWrapFlag, buffer := [line] }).index.getD []).filter
      (fun e => e.Line = 0)).length ≤
    (((reindexBuffer w1 { newTextView with wrap := wrapFlag, wordWrap := wordWrapFlag, buffer := [line] }).index.getD []).filter
      (fun e => e.Line = 0)).length := by
  rw [reindex_singleton_count
      { newTextView with wrap := wrapFlag, wordWrap := wordWrapFlag, buffer := [line] }
      line w2 rfl rfl rfl rfl (by omega)]
  rw [reindex_singleton_count
      { newTextView with wrap := wrapFlag, wordWrap := wordWrapFlag, buffer := [line] }
      line w1 rfl rfl rfl rfl h1]
  show (if wrapFlag = true ∧ ¬line.isEmpty then
      splitPieces wordWrapFlag w2.toNat (utf8Explode line)
    else [utf8Explode line]).length ≤
    (if wrapFlag = true ∧ ¬line.isEmpty then
      splitPieces wordWrapFlag w1.toNat (utf8Explode line)
    else [utf8Explode line]).length
  by_cases hc : wrapFlag = true ∧ ¬line.isEmpty
  · rw [if_pos hc, if_pos hc]
    have := splitPieces_count_mono wordWrapFlag w1.toNat w2.toNat (by omega)
      (utf8Explode line).length (utf8Explode line) 0 (Nat.le_refl _) hw
    simpa using this
  · rw [if_neg hc, if_neg hc]

theorem width_monotonicity_c4_witness :
    (((reindexBuffer 3 { newTextView with wrap := true, wordWrap := true, buffer := [[97, 32, 98]] }).index.getD []).filter
      (fun e => e.Line = 0)).length ≤
    (((reindexBuffer 2 { newTextView with wrap := true, wordWrap := true, buffer := [[97, 32, 98]] }).index.getD []).filter
      (fun e => e.Line = 0)).length :=
  width_monotonicity_c4 [97, 32, 98] true true 2 3 (by decide) (by decide) (by decide)

/-! ## Region extraction on a parametric buffer (C8) -/

/-- ASCII bytes decode to themselves with size one. -/
theorem decodeRune_ascii (b : Nat) (rest : List Nat) (h : b < 128) :
    decodeRune (b :: rest) = (b, 1) := by
  simp only [decodeRune]
  rw [if_pos h]

/-- ASCII codepoints encode to their own single byte. -/
theorem encodeRune_ascii (b : Nat) (h : b < 128) : encodeRune b = [b] := by
  unfold encodeRune
  rw [if_pos h]

/-- Decoding an ASCII prefix peels it off byte by byte. -/
theorem utf8ExplodeAux_ascii_append (x : List Nat) (hx : ∀ b ∈ x, b < 128) :
    ∀ y, utf8ExplodeAux (x ++ y).length (x ++ y) =
      (x.map fun b => (b, 1)) ++ utf8ExplodeAux y.length y := by
  induction x with
  | nil => intro y; rfl
  | cons b xs ih =>
    intro y
    have hstep : utf8ExplodeAux ((b :: xs) ++ y).length ((b :: xs) ++ y) =
        decodeRune (b :: (xs ++ y)) ::
          utf8ExplodeAux (xs ++ y).length
            ((b :: (xs ++ y)).drop (decodeRune (b :: (xs ++ y))).2) := rfl
    rw [hstep, decodeRune_ascii b _ (hx b (by simp))]
    show (b, 1) :: utf8ExplodeAux (xs ++ y).length (xs ++ y) = _
    rw [ih (fun b2 hb2 => hx b2 (by simp [hb2])) y]
    rfl

/-- Exploding a byte string with an ASCII prefix. -/
theorem utf8Explode_ascii_append (x y : List Nat) (hx : ∀ b ∈ x, b < 128) :
    utf8Explode (x ++ y) = (x.map fun b => (b, 1)) ++ utf8Explode y :=
  utf8ExplodeAux_ascii_append x hx y

/-- Exploding a pure ASCII byte string. -/
theorem utf8Explode_ascii (s : List Nat) (h : ∀ b ∈ s, b < 128) :
    utf8Explode s = s.map fun b => (b, 1) := by
  have := utf8Explode_ascii_append s [] h
  simpa [show utf8Explode [] = [] from rfl] using this

/-- No region tag can start at a byte other than `[`. -/
theorem tryRegionAt_none (b : Nat) (rest : List Nat) (hb : b ≠ 91) :
    tryRegionAt (b :: rest) = none := by
  rw [tryRegionAt.eq_def]
  split
  · rename_i heq
    injection heq with h1 _
    exact absurd h1 hb
  · rfl

/-- One scan step of `FindAllStringIndex` on a nonempty string. -/
theorem findAllAux_cons_step {α : Type} (tryTag : List Nat → Option (Nat × α))
    (fuel : Nat) (b : Nat) (rest : List Nat) (pos : Nat) :
    findAllAux tryTag (fuel + 1) (b :: rest) pos =
    (match tryTag (b :: rest) with
     | some (n, a) => (pos, pos + n, a) :: findAllAux tryTag fuel ((b :: rest).drop n) (pos + n)
     | none => findAllAux tryTag fuel rest (pos + 1)) := rfl

/-- A bracket-free string has no region matches, whatever the fuel. -/
theorem findAllAux_region_nil : ∀ (fuel : Nat) (s : List Nat) (pos : Nat),
    (∀ b ∈ s, b ≠ 91) → findAllAux tryRegionAt fuel s pos = [] := by
  intro fuel
  induction fuel with
  | zero =>
    intro s pos _
    match s with
    | [] => rfl
    | b :: rest => rfl
  | succ fuel ih =>
    intro s pos hs
    match s with
    | [] => rfl
    | b :: rest =>
      rw [findAllAux_cons_step, tryRegionAt_none b rest (hs b (by simp))]
      exact ih rest (pos + 1) (fun b2 hb2 => hs b2 (by simp [hb2]))

/-- The region scan skips over a bracket-free prefix. -/
theorem findAllAux_region_skip (x : List Nat) (hx : ∀ b ∈ x, b ≠ 91) :
    ∀ (s : List Nat) (pos fuel : Nat),
    findAllAux tryRegionAt (x.length + fuel) (x ++ s) pos =
    findAllAux tryRegionAt fuel s (pos + x.length) := by
  induction x with
  | nil =>
    intro s pos fuel
    simp
  | cons b xs ih =>
    intro s pos fuel
    rw [show (b :: xs).length + fuel = (xs.length + fuel) + 1 by simp; omega]
    show findAllAux tryRegionAt ((xs.length + fuel) + 1) (b :: (xs ++ s)) pos = _
    rw [findAllAux_cons_step, tryRegionAt_none b _ (hx b (by simp))]
    rw [ih (fun b2 hb2 => hx b2 (by simp [hb2])) s (pos + 1) fuel]
    rw [show pos + (b :: xs).length = pos + 1 + xs.length by
      simp only [List.length_cons]; omega]

/-- The anchored match of an opening `["a"]` tag. -/
theorem tryRegionAt_open (c1 : List Nat) :
    tryRegionAt (91 :: 34 :: 97 :: 34 :: 93 :: c1) = some (5, [97]) := rfl

/-- The anchored match of a closing `[""]` tag. -/
theorem tryRegionAt_close (suf : List Nat) :
    tryRegionAt (91 :: 34 :: 34 :: 93 :: suf) = some (4, []) := rfl

/-- Region matches of a line `pre["a"]c1` with `pre` and `c1`
bracket-free: exactly the opening tag. -/
theorem regionMatches_open (pre c1 : List Nat)
    (hpre : ∀ b ∈ pre, b ≠ 91) (hc1 : ∀ b ∈ c1, b ≠ 91) :
    regionMatches (pre ++ 91 :: 34 :: 97 :: 34 :: 93 :: c1) =
    [(pre.length, pre.length + 5, [97])] := by
  unfold regionMatches
  rw [show (pre ++ 91 :: 34 :: 97 :: 34 :: 93 :: c1).length =
    pre.length + (c1.length + 5) by
      simp only [List.length_append, List.length_cons]]
  rw [findAllAux_region_skip pre hpre _ 0 (c1.length + 5)]
  show findAllAux tryRegionAt ((c1.length + 4) + 1) (91 :: 34 :: 97 :: 34 :: 93 :: c1)
    (0 + pre.length) = _
  rw [findAllAux_cons_step, tryRegionAt_open]
  show (0 + pre.length, 0 + pre.length + 5, [97]) ::
    findAllAux tryRegionAt (c1.length + 4) c1 (0 + pre.length + 5) = _
  rw [findAllAux_region_nil (c1.length + 4) c1 _ hc1]
  rw [show 0 + pre.length = pre.length by omega]

/-- Region matches of a line `c2[""]suf` with `c2` bracket-free: the
closing tag first, followed by whatever matches lie in `suf`. -/
theorem regionMatches_close (c2 suf : List Nat) (hc2 : ∀ b ∈ c2, b ≠ 91) :
    regionMatches (c2 ++ 91 :: 34 :: 34 :: 93 :: suf) =
    (c2.length, c2.length + 4, []) ::
      findAllAux tryRegionAt (suf.length + 3) suf (c2.length + 4) := by
  unfold regionMatches
  rw [show (c2 ++ 91 :: 34 :: 34 :: 93 :: suf).length =
    c2.length + (suf.length + 4) by
      simp only [List.length_append, List.length_cons]]
  rw [findAllAux_region_skip c2 hc2 _ 0 (suf.length + 4)]
  show findAllAux tryRegionAt ((suf.length + 3) + 1) (91 :: 34 :: 34 :: 93 :: suf)
    (0 + c2.length) = _
  rw [findAllAux_cons_step, tryRegionAt_close]
  show (0 + c2.length, 0 + c2.length + 4, []) ::
    findAllAux tryRegionAt (suf.length + 3) suf (0 + c2.length + 4) = _
  rw [show 0 + c2.length = c2.length by omega]

/-- `regionMatches` of a bracket-free line is empty. -/
theorem regionMatches_nil (pl : List Nat) (h : ∀ b ∈ pl, b ≠ 91) :
    regionMatches pl = [] :=
  findAllAux_region_nil pl.length pl 0 h

/-- A scan step strictly inside the head region tag (not its last byte):
everything is carried unchanged. -/
theorem grtLine_step_in (t : List Nat) (r n : Nat) (rest : List (Nat × Nat))
    (pos s_ e_ : Nat) (id_ : List Nat) (ms : List (Nat × Nat × List Nat))
    (cur acc : List Nat) (hs : s_ ≤ pos) (hlt : pos < e_) (hne : pos ≠ e_ - 1) :
    grtLine t ((r, n) :: rest) pos [] ((s_, e_, id_) :: ms) cur acc =
    grtLine t rest (pos + n) [] ((s_, e_, id_) :: ms) cur acc := by
  have h3 : inRange3 ((s_, e_, id_) :: ms) pos = true := by
    simp [inRange3]
    omega
  conv_lhs => rw [grtLine]
  rw [if_neg (by simp [inRange2]), if_pos h3]
  rw [if_neg hne]

/-- The scan step at the last byte of the head region tag when the current
region is not the target: switch to the tag's id and pop the tag. -/
theorem grtLine_step_switch (t : List Nat) (r n : Nat) (rest : List (Nat × Nat))
    (pos s_ e_ : Nat) (id_ : List Nat) (ms : List (Nat × Nat × List Nat))
    (cur acc : List Nat) (hs : s_ ≤ pos) (hlt : pos < e_) (hpe : pos = e_ - 1)
    (hcur : cur ≠ t) :
    grtLine t ((r, n) :: rest) pos [] ((s_, e_, id_) :: ms) cur acc =
    grtLine t rest (pos + n) [] ms id_ acc := by
  have h3 : inRange3 ((s_, e_, id_) :: ms) pos = true := by
    simp [inRange3]
    omega
  conv_lhs => rw [grtLine]
  rw [if_neg (by simp [inRange2]), if_pos h3]
  rw [if_pos hpe, if_neg hcur]

/-- The scan step at the last byte of the head region tag while inside the
target region: return the collected text at once. -/
theorem grtLine_step_done (t : List Nat) (r n : Nat) (rest : List (Nat × Nat))
    (pos s_ e_ : Nat) (id_ : List Nat) (ms : List (Nat × Nat × List Nat))
    (acc : List Nat) (hs : s_ ≤ pos) (hlt : pos < e_) (hpe : pos = e_ - 1) :
    grtLine t ((r, n) :: rest) pos [] ((s_, e_, id_) :: ms) t acc =
    Sum.inl acc := by
  have h3 : inRange3 ((s_, e_, id_) :: ms) pos = true := by
    simp [inRange3]
    omega
  conv_lhs => rw [grtLine]
  rw [if_neg (by simp [inRange2]), if_pos h3]
  rw [if_pos hpe, if_pos rfl]

/-- With no tags pending and outside any region, the scan of a line
changes nothing. -/
theorem grtLine_idle (t : List Nat) (ht : t ≠ []) :
    ∀ (ps : List (Nat × Nat)) (pos : Nat) (acc : List Nat),
    grtLine t ps pos [] [] [] acc = Sum.inr (acc, []) := by
  intro ps
  induction ps with
  | nil => intro pos acc; rfl
  | cons p rest ih =>
    intro pos acc
    match p with
    | (r, n) =>
      conv_lhs => rw [grtLine]
      rw [if_neg (by simp [inRange2]), if_neg (by simp [inRange3])]
      rw [if_neg (fun h => ht h.symm)]
      exact ih (pos + n) acc

/-- Scanning an ASCII run that lies entirely before the head region tag:
positions advance byte by byte, and the bytes are collected exactly when
the current region is the target. -/
theorem grtLine_ascii_run (t : List Nat) :
    ∀ (bs : List Nat), (∀ b ∈ bs, b < 128) →
    ∀ (tail : List (Nat × Nat)) (pos : Nat) (rms : List (Nat × Nat × List Nat))
      (cur acc : List Nat),
    (∀ s_ e_ id_ ms, rms = (s_, e_, id_) :: ms → pos + bs.length ≤ s_) →
    grtLine t ((bs.map fun b => (b, 1)) ++ tail) pos [] rms cur acc =
    grtLine t tail (pos + bs.length) [] rms cur
      (if cur = t then acc ++ bs else acc) := by
  intro bs
  induction bs with
  | nil =>
    intro _ tail pos rms cur acc _
    simp
  | cons b bs' ih =>
    intro hb tail pos rms cur acc hfar
    have hstep : grtLine t (((b :: bs').map fun b => (b, 1)) ++ tail) pos [] rms cur acc =
        grtLine t ((bs'.map fun b => (b, 1)) ++ tail) (pos + 1) [] rms cur
          (if cur = t then acc ++ encodeRune b else acc) := by
      show grtLine t ((b, 1) :: ((bs'.map fun b => (b, 1)) ++ tail)) pos [] rms cur acc = _
      rcases rms with _ | ⟨⟨s_, e_, id_⟩, ms⟩
      · conv_lhs => rw [grtLine]
        rw [if_neg (by simp [inRange2]), if_neg (by simp [inRange3])]
      · have hfar' := hfar s_ e_ id_ ms rfl
        simp only [List.length_cons] at hfar'
        conv_lhs => rw [grtLine]
        rw [if_neg (by simp [inRange2]), if_neg (by simp [inRange3]; omega)]
    rw [hstep, encodeRune_ascii b (hb b (by simp))]
    rw [ih (fun b2 h2 => hb b2 (by simp [h2])) tail (pos + 1) rms cur _
      (fun s_ e_ id_ ms hrm => by
        have := hfar s_ e_ id_ ms hrm
        simp only [List.length_cons] at this ⊢
        omega)]
    by_cases hcur : cur = t
    · simp only [if_pos hcur]
      rw [show pos + 1 + bs'.length = pos + (b :: bs').length by
        simp only [List.length_cons]; omega]
      rw [List.append_assoc]
      rfl
    · simp only [if_neg hcur]
      rw [show pos + 1 + bs'.length = pos + (b :: bs').length by
        simp only [List.length_cons]; omega]

/-- The line loop passes unchanged over bracket-free lines while outside
any region. -/
theorem grtBuffer_skip (t : List Nat) (ht : t ≠ []) :
    ∀ (pls : List (List Nat)), (∀ pl ∈ pls, ∀ b ∈ pl, b ≠ 91) →
    ∀ (rest : List (List Nat)) (acc : List Nat),
    grtBuffer false t (pls ++ rest) [] acc = grtBuffer false t rest [] acc := by
  intro pls
  induction pls with
  | nil => intro _ rest acc; rfl
  | cons pl pls' ih =>
    intro h rest acc
    show grtBuffer false t (pl :: (pls' ++ rest)) [] acc = _
    conv_lhs => rw [grtBuffer]
    simp only [Bool.false_eq_true, if_false]
    rw [regionMatches_nil pl (h pl (by simp))]
    rw [grtLine_idle t ht (utf8Explode pl) 0 acc]
    dsimp only
    rw [if_neg (fun hx => ht hx.symm)]
    exact ih (fun pl2 h2 => h pl2 (by simp [h2])) rest acc

/-- Scanning the line `pre["a"]c1` from outside any region: nothing before
the tag is collected, the tag switches the current region to `a`, and the
rest of the line is collected. -/
theorem grtLine_openLine (pre c1 : List Nat)
    (hpre : ∀ b ∈ pre, b < 128) (hpreb : ∀ b ∈ pre, b ≠ 91)
    (hc1 : ∀ b ∈ c1, b < 128) (hc1b : ∀ b ∈ c1, b ≠ 91) (acc : List Nat) :
    grtLine [97] (utf8Explode (pre ++ 91 :: 34 :: 97 :: 34 :: 93 :: c1)) 0 []
      (regionMatches (pre ++ 91 :: 34 :: 97 :: 34 :: 93 :: c1)) [] acc =
    Sum.inr (acc ++ c1, [97]) := by
  rw [regionMatches_open pre c1 hpreb hc1b]
  rw [utf8Explode_ascii_append pre _ hpre]
  rw [show (91 : Nat) :: 34 :: 97 :: 34 :: 93 :: c1 = [91, 34, 97, 34, 93] ++ c1 from rfl]
  rw [utf8Explode_ascii_append [91, 34, 97, 34, 93] c1 (by decide)]
  rw [utf8Explode_ascii c1 hc1]
  rw [grtLine_ascii_run [97] pre hpre _ 0 _ [] acc (fun s_ e_ id_ ms hrm => by
    injection hrm with h1 _
    injection h1 with ha hb
    omega)]
  rw [if_neg (by simp)]
  show grtLine [97] ((91, 1) :: (34, 1) :: (97, 1) :: (34, 1) :: (93, 1) ::
    (c1.map fun b => (b, 1))) (0 + pre.length) []
    [(pre.length, pre.length + 5, [97])] [] acc = _
  rw [grtLine_step_in [97] 91 1 _ (0 + pre.length) pre.length (pre.length + 5)
    [97] [] [] acc (by omega) (by omega) (by omega)]
  rw [grtLine_step_in [97] 34 1 _ (0 + pre.length + 1) pre.length (pre.length + 5)
    [97] [] [] acc (by omega) (by omega) (by omega)]
  rw [grtLine_step_in [97] 97 1 _ (0 + pre.length + 1 + 1) pre.length (pre.length + 5)
    [97] [] [] acc (by omega) (by omega) (by omega)]
  rw [grtLine_step_in [97] 34 1 _ (0 + pre.length + 1 + 1 + 1) pre.length (pre.length + 5)
    [97] [] [] acc (by omega) (by omega) (by omega)]
  rw [grtLine_step_switch [97] 93 1 _ (0 + pre.length + 1 + 1 + 1 + 1) pre.length
    (pre.length + 5) [97] [] [] acc (by omega) (by omega) (by omega) (by simp)]
  have hrun := grtLine_ascii_run [97] c1 hc1 [] (0 + pre.length + 1 + 1 + 1 + 1 + 1)
    [] [97] acc (fun s_ e_ id_ ms hrm => by exact absurd hrm (by simp))
  rw [List.append_nil] at hrun
  rw [hrun, if_pos rfl]
  rfl

/-- Scanning the line `c2[""]suf` from inside region `a`: the text before
the closing tag is collected and the scan returns at the tag's last
byte. -/
theorem grtLine_closeLine (c2 suf : List Nat)
    (hc2 : ∀ b ∈ c2, b < 128) (hc2b : ∀ b ∈ c2, b ≠ 91) (acc : List Nat) :
    grtLine [97] (utf8Explode (c2 ++ 91 :: 34 :: 34 :: 93 :: suf)) 0 []
      (regionMatches (c2 ++ 91 :: 34 :: 34 :: 93 :: suf)) [97] acc =
    Sum.inl (acc ++ c2) := by
  rw [regionMatches_close c2 suf hc2b]
  rw [utf8Explode_ascii_append c2 _ hc2]
  rw [show (91 : Nat) :: 34 :: 34 :: 93 :: suf = [91, 34, 34, 93] ++ suf from rfl]
  rw [utf8Explode_ascii_append [91, 34, 34, 93] suf (by decide)]
  rw [grtLine_ascii_run [97] c2 hc2 _ 0 _ [97] acc (fun s_ e_ id_ ms hrm => by
    injection hrm with h1 _
    injection h1 with ha hb
    omega)]
  rw [if_pos rfl]
  show grtLine [97] ((91, 1) :: (34, 1) :: (34, 1) :: (93, 1) :: utf8Explode suf)
    (0 + c2.length) []
    ((c2.length, c2.length + 4, []) ::
      findAllAux tryRegionAt (suf.length + 3) suf (c2.length + 4)) [97] (acc ++ c2) = _
  rw [grtLine_step_in [97] 91 1 _ (0 + c2.length) c2.length (c2.length + 4)
    [] _ [97] (acc ++ c2) (by omega) (by omega) (by omega)]
  rw [grtLine_step_in [97] 34 1 _ (0 + c2.length + 1) c2.length (c2.length + 4)
    [] _ [97] (acc ++ c2) (by omega) (by omega) (by omega)]
  rw [grtLine_step_in [97] 34 1 _ (0 + c2.length + 1 + 1) c2.length (c2.length + 4)
    [] _ [97] (acc ++ c2) (by omega) (by omega) (by omega)]
  rw [grtLine_step_done [97] 93 1 _ (0 + c2.length + 1 + 1 + 1) c2.length
    (c2.length + 4) [] _ (acc ++ c2) (by omega) (by omega) (by omega)]

/-- The line loop on the opening line followed by the closing line:
returns early with the region text and the line break between the two
lines. -/
theorem grtBuffer_open_close (pre c1 c2 suf : List Nat)
    (rest : List (List Nat))
    (hpre : ∀ b ∈ pre, b < 128) (hpreb : ∀ b ∈ pre, b ≠ 91)
    (hc1 : ∀ b ∈ c1, b < 128) (hc1b : ∀ b ∈ c1, b ≠ 91)
    (hc2 : ∀ b ∈ c2, b < 128) (hc2b : ∀ b ∈ c2, b ≠ 91) :
    grtBuffer false [97] ((pre ++ 91 :: 34 :: 97 :: 34 :: 93 :: c1) ::
      (c2 ++ 91 :: 34 :: 34 :: 93 :: suf) :: rest) [] [] =
    (true, c1 ++ 10 :: c2) := by
  conv_lhs => rw [grtBuffer]
  simp only [Bool.false_eq_true, if_false]
  rw [grtLine_openLine pre c1 hpre hpreb hc1 hc1b []]
  show grtBuffer false [97] ((c2 ++ 91 :: 34 :: 34 :: 93 :: suf) :: rest) [97]
    (if ([97] : List Nat) = [97] then ([] ++ c1) ++ [10] else [] ++ c1) = _
  rw [if_pos rfl]
  conv_lhs => rw [grtBuffer]
  simp only [Bool.false_eq_true, if_false]
  rw [grtLine_closeLine c2 suf hc2 hc2b (([] ++ c1) ++ [10])]
  show (true, (([] ++ c1) ++ [10]) ++ c2) = _
  simp

/-- C8: with regions enabled, for a buffer of bracket-free lines followed
by a line `pre["a"]c1` and a line `c2[""]suf` (with the pieces around the
tags plain bracket-free ASCII, and `suf` and all following lines
arbitrary), `GetRegionText("a")` returns exactly the bare text between
the two tags — `c1`, a line break for the logical-line boundary crossed
inside the region, then `c2` — stopping at the closing tag. -/
theorem region_containment_c8 (preLines : List (List Nat)) (pre c1 c2 suf : List Nat)
    (postLines : List (List Nat))
    (hpl : ∀ pl ∈ preLines, ∀ b ∈ pl, b ≠ 91)
    (hpre : ∀ b ∈ pre, b < 128 ∧ b ≠ 91)
    (hc1 : ∀ b ∈ c1, b < 128 ∧ b ≠ 91)
    (hc2 : ∀ b ∈ c2, b < 128 ∧ b ≠ 91) :
    GetRegionText [97] { newTextView with
      regions := true
      buffer := preLines ++ (pre ++ 91 :: 34 :: 97 :: 34 :: 93 :: c1) ::
        (c2 ++ 91 :: 34 :: 34 :: 93 :: suf) :: postLines } =
    c1 ++ 10 :: c2 := by
  unfold GetRegionText
  rw [if_neg (by simp)]
  show (match grtBuffer false [97] (preLines ++
      (pre ++ 91 :: 34 :: 97 :: 34 :: 93 :: c1) ::
      (c2 ++ 91 :: 34 :: 34 :: 93 :: suf) :: postLines) [] [] with
    | (true, result) => result
    | (false, acc) => replaceEscapes acc (escapeMatches acc)) = c1 ++ 10 :: c2
  rw [grtBuffer_skip [97] (by simp) preLines hpl _ []]
  rw [grtBuffer_open_close pre c1 c2 suf postLines
    (fun b hb => (hpre b hb).1) (fun b hb => (hpre b hb).2)
    (fun b hb => (hc1 b hb).1) (fun b hb => (hc1 b hb).2)
    (fun b hb => (hc2 b hb).1) (fun b hb => (hc2 b hb).2)]

theorem region_containment_c8_witness :
    GetRegionText [97] { newTextView with
      regions := true
      buffer := [[120]] ++ ([112] ++ 91 :: 34 :: 97 :: 34 :: 93 :: [104, 105]) ::
        ([121, 111] ++ 91 :: 34 :: 34 :: 93 :: [122]) :: [[113]] } =
    [104, 105] ++ 10 :: [121, 111] :=
  region_containment_c8 [[120]] [112] [104, 105] [121, 111] [122] [[113]]
    (by decide) (by decide) (by decide) (by decide)
